import Mathlib

/-!
Verification of the dependency-update engine (deno-molt).

We give a shallow embedding of the resolution-and-patch core:
`src/lib/dependency.ts` (specifier parsing, `toUrl`, the latest-version
resolver with its per-name cache and mutex) and `createVersionProp`
(version-fact reconciliation).  Strings are modelled as `List Char`
(`Str`), so every operation is executable and every concrete claim can be
settled by `decide`.

JavaScript's WHATWG `URL` object is a platform primitive, not repository
code; we model it as a record of its components (`URL`) together with a
serialization (`URL.specifier`) and a well-formedness predicate
(`URL.wf`) characterizing specifier strings that WHATWG parsing maps to
those components unchanged (lower-case host, no percent-encoding, no dot
segments, canonical port), i.e. the strings that are already in URL
normal form.
-/

namespace Molt

/-- Strings are modelled as lists of characters. -/
abbrev Str := List Char

/-- Conversion from Lean string literals, used to write concrete inputs. -/
def str (s : String) : Str := s.data

/-- Components of a WHATWG URL, as exposed by the JavaScript `URL` object:
`protocol` includes the trailing colon, `search` the leading question mark
and `hash` the leading hash sign, while `hostname` excludes the port. -/
structure URL where
  protocol : Str
  username : Str
  password : Str
  hostname : Str
  port : Str
  pathname : Str
  search : Str
  hash : Str
deriving DecidableEq, Repr

/-- `Dependency` from `src/lib/dependency.ts`: the properties of a
dependency parsed from an import specifier.  `version` is optional, as in
the source interface. -/
structure Dependency where
  protocol : Str
  name : Str
  version : Option Str
  path : Str
deriving DecidableEq, Repr

/-- `addSeparator` from `src/lib/dependency.ts`: convert the given
protocol to a URL scheme, reattaching the double slash exactly for the
hierarchical schemes of the source's switch statement. -/
def addSeparator (protocol : Str) : Str :=
  if protocol = str "file:" ∨ protocol = str "http:" ∨ protocol = str "https:" then
    protocol ++ str "//"
  else
    protocol

/-- `i` is a position where the regex
`^(?<name>.+)@(?<version>[^/]+)(?<path>\/.*)?$` can place the `@`:
a nonempty name before it and a nonempty slash-free version after it. -/
def validAt (cs : Str) (i : Nat) : Bool :=
  decide (1 ≤ i) && decide (cs[i]? = some '@') &&
    (match cs[i + 1]? with
     | some c => decide (c ≠ '/')
     | none => false)

/-- Maximum of a list of naturals, `none` on the empty list. -/
def maxNat? : List Nat → Option Nat
  | [] => none
  | n :: ns =>
    match maxNat? ns with
    | none => some n
    | some m => some (max n m)

/-- The position chosen by the greedy regex: the rightmost valid `@`. -/
def matchIdx (cs : Str) : Option Nat :=
  maxNat? ((List.range cs.length).filter (fun i => validAt cs i))

/-- The match of `^(?<name>.+)@(?<version>[^/]+)(?<path>\/.*)?$` against
the URL body, as performed by `parse` in `src/lib/dependency.ts`:
the greedy `.+` maximizes the name, the version is the maximal slash-free
run after the chosen `@`, the path is the remainder. -/
def splitDep (cs : Str) : Option (Str × Str × Str) :=
  match matchIdx cs with
  | some i =>
    some (cs.take i, (cs.drop (i + 1)).takeWhile (fun c => c ≠ '/'),
      (cs.drop (i + 1)).dropWhile (fun c => c ≠ '/'))
  | none => none

/-- `parse` from `src/lib/dependency.ts`: parse the properties of a
dependency from the given URL.  The body is `hostname + pathname`; a
successful regex match yields name, version and path, otherwise the whole
body is the name. -/
def parse (u : URL) : Dependency :=
  let body := u.hostname ++ u.pathname
  match splitDep body with
  | some (n, v, p) => ⟨u.protocol, n, some v, p⟩
  | none => ⟨u.protocol, body, none, []⟩

/-- `toUrl` from `src/lib/dependency.ts`: convert the given dependency to
a URL string, prefixing the version with an `@` when present. -/
def toUrl (d : Dependency) : Str :=
  addSeparator d.protocol ++ d.name ++
    (match d.version with
     | some v => '@' :: v
     | none => []) ++ d.path

/-- A decomposition of the URL body into `name @ version path` with a
nonempty name, a nonempty version free of slashes, and a path that is
empty or starts with a path separator: exactly the decompositions the
source regex can produce. -/
def Decomp (cs n v p : Str) : Prop :=
  cs = n ++ '@' :: (v ++ p) ∧ n ≠ [] ∧ v ≠ [] ∧ '/' ∉ v ∧
    (p = [] ∨ p.head? = some '/')

instance (cs n v p : Str) : Decidable (Decomp cs n v p) := by
  unfold Decomp
  infer_instance

theorem maxNat?_mem {l : List Nat} {m : Nat} (h : maxNat? l = some m) : m ∈ l := by
  induction l generalizing m with
  | nil => simp [maxNat?] at h
  | cons n ns ih =>
    simp only [maxNat?] at h
    cases hm : maxNat? ns with
    | none => simp only [hm] at h; simp at h; simp [h]
    | some m' =>
      simp only [hm] at h
      simp at h
      rcases le_total n m' with hle | hle
      · rw [← h, max_eq_right hle]; exact List.mem_cons_of_mem n (ih hm)
      · rw [← h, max_eq_left hle]; exact List.mem_cons_self n ns

theorem maxNat?_eq_none {l : List Nat} (h : maxNat? l = none) : l = [] := by
  cases l with
  | nil => rfl
  | cons n ns =>
    simp only [maxNat?] at h
    cases hm : maxNat? ns <;> simp only [hm] at h <;> cases h

theorem le_maxNat? {l : List Nat} {a m : Nat} (ha : a ∈ l) (h : maxNat? l = some m) :
    a ≤ m := by
  induction l generalizing m with
  | nil => simp at ha
  | cons n ns ih =>
    simp only [maxNat?] at h
    cases hm : maxNat? ns with
    | none =>
      simp only [hm] at h
      simp at h
      rcases List.mem_cons.mp ha with h1 | h1
      · omega
      · rw [maxNat?_eq_none hm] at h1; cases h1
    | some m' =>
      simp only [hm] at h
      simp at h
      rcases List.mem_cons.mp ha with h1 | h1
      · rw [← h, h1]; exact le_max_left n m'
      · rw [← h]; exact le_trans (ih h1 hm) (le_max_right n m')

theorem dropWhile_head?_false {p : Char → Bool} {l : List Char} :
    l.dropWhile p = [] ∨ ∃ c cs, l.dropWhile p = c :: cs ∧ p c = false := by
  induction l with
  | nil => left; rfl
  | cons a as ih =>
    by_cases hpa : p a = true
    · simpa [List.dropWhile, hpa] using ih
    · right
      refine ⟨a, as, ?_, by simpa using hpa⟩
      simp [List.dropWhile, hpa]

theorem valid_decomp {cs : Str} {i : Nat} (h : validAt cs i = true) :
    Decomp cs (cs.take i) ((cs.drop (i + 1)).takeWhile (fun c => c ≠ '/'))
      ((cs.drop (i + 1)).dropWhile (fun c => c ≠ '/')) := by
  simp only [validAt, Bool.and_eq_true, decide_eq_true_eq] at h
  obtain ⟨⟨h1, h2⟩, h3⟩ := h
  obtain ⟨c, hc⟩ : ∃ c, cs[i + 1]? = some c ∧ c ≠ '/' := by
    cases hg : cs[i + 1]? with
    | none => rw [hg] at h3; cases h3
    | some c => rw [hg] at h3; exact ⟨c, rfl, by simpa using h3⟩
  have hi : i < cs.length := (List.getElem?_eq_some.mp h2).1
  have hi1 : i + 1 < cs.length := (List.getElem?_eq_some.mp hc.1).1
  have hdrop : cs.drop i = '@' :: cs.drop (i + 1) := by
    rw [List.drop_eq_getElem_cons hi]
    congr 1
    exact (List.getElem?_eq_some.mp h2).2
  have hdrop1 : cs.drop (i + 1) = c :: cs.drop (i + 2) := by
    rw [List.drop_eq_getElem_cons hi1]
    congr 1
    exact (List.getElem?_eq_some.mp hc.1).2
  refine ⟨?_, ?_, ?_, ?_, ?_⟩
  · conv_lhs => rw [← List.take_append_drop i cs]
    rw [hdrop, List.takeWhile_append_dropWhile]
  · intro hemp
    have : (cs.take i).length = 0 := by rw [hemp]; rfl
    rw [List.length_take] at this
    omega
  · rw [hdrop1, List.takeWhile_cons_of_pos (by simpa using hc.2)]
    simp
  · intro hmem
    have := List.mem_takeWhile_imp hmem
    simp at this
  · rcases dropWhile_head?_false (l := cs.drop (i + 1)) (p := fun c => decide (c ≠ '/')) with
      hnil | ⟨c', cs', heq, hfalse⟩
    · left; simpa using hnil
    · right
      have : c' = '/' := by simpa using hfalse
      simp only [heq, this, List.head?_cons]

theorem decomp_valid {cs n v p : Str} (h : Decomp cs n v p) :
    validAt cs n.length = true ∧ n.length < cs.length := by
  obtain ⟨hcs, hn, hv, hslash, _⟩ := h
  obtain ⟨v0, vs, hv0⟩ : ∃ v0 vs, v = v0 :: vs := by
    cases v with
    | nil => cases hv rfl
    | cons v0 vs => exact ⟨v0, vs, rfl⟩
  have hat : cs[n.length]? = some '@' := by
    rw [hcs, List.getElem?_append_right (le_refl n.length)]
    simp
  have hnext : cs[n.length + 1]? = some v0 := by
    rw [hcs, List.getElem?_append_right (by omega)]
    have : n.length + 1 - n.length = 1 := by omega
    rw [this]
    simp [hv0]
  constructor
  · simp only [validAt, Bool.and_eq_true, decide_eq_true_eq]
    refine ⟨⟨?_, hat⟩, ?_⟩
    · cases n with
      | nil => cases hn rfl
      | cons a as => simp
    · rw [hnext]
      simp only [decide_eq_true_eq]
      intro hc
      exact hslash (hc ▸ (hv0 ▸ List.mem_cons_self v0 vs))
  · exact (List.getElem?_eq_some.mp hat).1

theorem splitDep_decomp {cs n v p : Str} (h : splitDep cs = some (n, v, p)) :
    Decomp cs n v p := by
  simp only [splitDep] at h
  cases hmi : matchIdx cs with
  | none => rw [hmi] at h; cases h
  | some i =>
    rw [hmi] at h
    have hvalid : validAt cs i = true := by
      have hmem := maxNat?_mem hmi
      have := List.mem_filter.mp hmem
      exact this.2
    obtain ⟨he1, he2, he3⟩ : n = cs.take i ∧
        v = (cs.drop (i + 1)).takeWhile (fun c => c ≠ '/') ∧
        p = (cs.drop (i + 1)).dropWhile (fun c => c ≠ '/') := by
      cases h; exact ⟨rfl, rfl, rfl⟩
    rw [he1, he2, he3]
    exact valid_decomp hvalid

theorem splitDep_rightmost {cs n v p n' v' p' : Str}
    (h : splitDep cs = some (n, v, p)) (h' : Decomp cs n' v' p') :
    n'.length ≤ n.length := by
  simp only [splitDep] at h
  cases hmi : matchIdx cs with
  | none => rw [hmi] at h; cases h
  | some i =>
    rw [hmi] at h
    have hn : n = cs.take i := by cases h; rfl
    obtain ⟨hval, hlt⟩ := decomp_valid h'
    have hmem : n'.length ∈ (List.range cs.length).filter (fun j => validAt cs j) := by
      rw [List.mem_filter, List.mem_range]
      exact ⟨hlt, hval⟩
    have hle := le_maxNat? hmem hmi
    rw [hn, List.length_take]
    have hi : i < cs.length := by
      have := List.mem_range.mp (List.mem_filter.mp (maxNat?_mem hmi)).1
      exact this
    omega

theorem splitDep_none {cs n v p : Str} (h : splitDep cs = none) :
    ¬ Decomp cs n v p := by
  intro hd
  simp only [splitDep] at h
  cases hmi : matchIdx cs with
  | some i => rw [hmi] at h; cases h
  | none =>
    obtain ⟨hval, hlt⟩ := decomp_valid hd
    have : ((List.range cs.length).filter (fun j => validAt cs j)) = [] :=
      maxNat?_eq_none hmi
    have hmem : n.length ∈ (List.range cs.length).filter (fun j => validAt cs j) := by
      rw [List.mem_filter, List.mem_range]
      exact ⟨hlt, hval⟩
    rw [this] at hmem
    cases hmem

/-- Whatever the regex does, reassembling with `toUrl` recovers the
scheme separator followed by the URL body: `parse` loses exactly the
components it never reads. -/
theorem toUrl_parse (u : URL) :
    toUrl (parse u) = addSeparator u.protocol ++ (u.hostname ++ u.pathname) := by
  cases hsd : splitDep (u.hostname ++ u.pathname) with
  | none => simp [parse, toUrl, hsd]
  | some nvp =>
    obtain ⟨n, v, p⟩ := nvp
    have hd := splitDep_decomp hsd
    obtain ⟨hcs, _, _, _, _⟩ := hd
    simp only [parse, hsd, toUrl]
    rw [hcs]
    simp

/-- Characters allowed in a hostname that WHATWG parsing leaves
unchanged: lower-case letters, digits, dots and hyphens. -/
def hostChar (c : Char) : Bool :=
  c.isLower || c.isDigit || c = '.' || c = '-'

/-- Characters of userinfo components that need no percent-encoding. -/
def userChar (c : Char) : Bool :=
  c.isAlphanum || c = '.' || c = '_' || c = '-'

/-- Path characters that WHATWG parsing copies verbatim (no
percent-encoding, no backslash, no query or fragment delimiter). -/
def pathChar (c : Char) : Bool :=
  c.isAlphanum || (str "!$&()*+,-./:;=@_~").contains c

/-- Query and fragment characters copied verbatim. -/
def queryChar (c : Char) : Bool :=
  pathChar c || c = '?'

/-- Split a string at every occurrence of a separator character. -/
def splitOnChar (sep : Char) : Str → List Str
  | [] => [[]]
  | c :: cs =>
    if c = sep then [] :: splitOnChar sep cs
    else
      match splitOnChar sep cs with
      | [] => [[c]]
      | s :: ss => (c :: s) :: ss

/-- The WHATWG special schemes this program's `addSeparator` reattaches
a double slash for. -/
def specialSchemes : List Str := [str "file:", str "http:", str "https:"]

/-- The opaque registry schemes of the program. -/
def opaqueSchemes : List Str := [str "npm:", str "jsr:"]

/-- No path segment is a dot segment, so WHATWG path normalization is
the identity. -/
def segmentsOk (s : Str) : Bool :=
  (splitOnChar '/' s).all (fun seg => decide (seg ≠ str ".") && decide (seg ≠ str ".."))

/-- A hostname already in WHATWG normal form: allowed characters, no
empty label, and a last label that cannot be mistaken for an IPv4
numeric label. -/
def hostOk (h : Str) : Bool :=
  h.all hostChar &&
    (splitOnChar '.' h).all (fun l => decide (l ≠ [])) &&
    (match (splitOnChar '.' h).getLast? with
     | some l => l.all (fun c => c.isLower || c = '-')
     | none => true)

/-- A `URL` record is well formed when WHATWG parsing of its
serialization returns exactly these components: a scheme of this
program, normal-form host and canonical port, verbatim path without dot
segments, and query and fragment needing no encoding.  Opaque registry
schemes carry no authority. -/
def URL.wfB (u : URL) : Bool :=
  (specialSchemes.contains u.protocol || opaqueSchemes.contains u.protocol) &&
    u.username.all userChar && u.password.all userChar &&
    u.port.all Char.isDigit &&
    (decide (u.port = []) || decide (u.port.head? ≠ some '0')) &&
    (decide (u.protocol ≠ str "http:") || decide (u.port ≠ str "80")) &&
    (decide (u.protocol ≠ str "https:") || decide (u.port ≠ str "443")) &&
    (decide (u.protocol ≠ str "file:") ||
      (decide (u.port = []) && decide (u.username = []) && decide (u.password = []))) &&
    (!(specialSchemes.contains u.protocol) ||
      (decide (u.pathname.head? = some '/') &&
        (decide (u.protocol = str "file:") ||
          (decide (u.hostname ≠ []) && hostOk u.hostname)) &&
        (decide (u.protocol ≠ str "file:") ||
          (decide (u.hostname = []) || hostOk u.hostname)))) &&
    (!(opaqueSchemes.contains u.protocol) ||
      (decide (u.hostname = []) && decide (u.username = []) &&
        decide (u.password = []) && decide (u.port = []) &&
        decide (u.pathname ≠ []) && decide (u.pathname.head? ≠ some '/'))) &&
    u.pathname.all pathChar && segmentsOk u.pathname &&
    (decide (u.search = []) ||
      (decide (u.search.head? = some '?') && u.search.tail.all queryChar)) &&
    (decide (u.hash = []) ||
      (decide (u.hash.head? = some '#') && u.hash.tail.all queryChar))

/-- Propositional form of well-formedness. -/
def URL.wf (u : URL) : Prop :=
  u.wfB = true

instance (u : URL) : Decidable u.wf := by
  unfold URL.wf
  infer_instance

/-- Userinfo part of the WHATWG serialization: present, terminated by a
commercial at, exactly when a username or password is present. -/
def userinfoStr (u : URL) : Str :=
  if u.username = [] ∧ u.password = [] then []
  else u.username ++ (if u.password = [] then [] else ':' :: u.password) ++ ['@']

/-- Port part of the WHATWG serialization. -/
def portStr (u : URL) : Str :=
  if u.port = [] then [] else ':' :: u.port

/-- WHATWG serialization (`href`) of a well-formed `URL` record: the
specifier string that parses to these components. -/
def URL.specifier (u : URL) : Str :=
  u.protocol ++ (if u.protocol ∈ specialSchemes then str "//" else []) ++
    userinfoStr u ++ u.hostname ++ portStr u ++ u.pathname ++ u.search ++ u.hash

theorem addSeparator_eq (p : Str) :
    addSeparator p = p ++ (if p ∈ specialSchemes then str "//" else []) := by
  by_cases h : p = str "file:" ∨ p = str "http:" ∨ p = str "https:"
  · rw [addSeparator, if_pos h, if_pos]
    simpa [specialSchemes] using h
  · rw [addSeparator, if_neg h, if_neg, List.append_nil]
    simpa [specialSchemes] using h

/-- C1: for every well-formed versioned specifier, converting the result
of `parse` back with `toUrl` yields exactly the specifier, reattaching
the double slash for the hierarchical schemes and nothing for the opaque
registry schemes. -/
theorem toUrl_parse_roundtrip (u : URL) (hwf : u.wf)
    (hu : u.username = []) (hpw : u.password = []) (hpt : u.port = [])
    (hs : u.search = []) (hh : u.hash = [])
    (hv : (parse u).version.isSome = true) :
    toUrl (parse u) = u.specifier := by
  rw [toUrl_parse, addSeparator_eq]
  simp [URL.specifier, userinfoStr, portStr, hu, hpw, hpt, hs, hh, List.append_assoc]

/-- Example input for the C1 round-trip. -/
def exA : URL :=
  ⟨str "https:", [], [], str "deno.land", [], str "/std@0.200.0/fs/mod.ts", [], []⟩

theorem toUrl_parse_roundtrip_witness : toUrl (parse exA) = exA.specifier :=
  toUrl_parse_roundtrip exA (by decide) rfl rfl rfl rfl rfl (by decide)

/-- C9: `parse` is total on URL records and splits the body
(hostname plus pathname) at the rightmost name-at-version occurrence
whose version runs to the next path separator, the rest being the path;
with no such occurrence the version is absent, the name is the entire
body and the path is empty. -/
theorem parse_split_rightmost (u : URL) :
    ((∃ n v p, Decomp (u.hostname ++ u.pathname) n v p) →
      ∃ v0, (parse u).version = some v0 ∧
        Decomp (u.hostname ++ u.pathname) (parse u).name v0 (parse u).path ∧
        ∀ n v p, Decomp (u.hostname ++ u.pathname) n v p →
          n.length ≤ (parse u).name.length) ∧
    ((¬ ∃ n v p, Decomp (u.hostname ++ u.pathname) n v p) →
      (parse u).version = none ∧ (parse u).name = u.hostname ++ u.pathname ∧
        (parse u).path = []) := by
  cases hsd : splitDep (u.hostname ++ u.pathname) with
  | some nvp =>
    obtain ⟨n, v, p⟩ := nvp
    constructor
    · intro _
      refine ⟨v, ?_, ?_, ?_⟩
      · simp only [parse, hsd]
      · simpa only [parse, hsd] using splitDep_decomp hsd
      · intro n' v' p' hd
        simpa only [parse, hsd] using splitDep_rightmost hsd hd
    · intro hnone
      exact absurd ⟨n, v, p, splitDep_decomp hsd⟩ hnone
  | none =>
    constructor
    · rintro ⟨n, v, p, hd⟩
      exact absurd hd (splitDep_none hsd)
    · intro _
      simp [parse, hsd]

/-- Example input for the C9 split. -/
def exB : URL :=
  ⟨str "npm:", [], [], [], [], str "node-emoji@2.0.0", [], []⟩

theorem parse_split_rightmost_witness : (parse exB).version.isSome = true := by
  have h := (parse_split_rightmost exB).1
    ⟨str "node-emoji", str "2.0.0", [], by decide⟩
  obtain ⟨v0, hv, _, _⟩ := h
  simp [hv]

theorem userinfoStr_ne_nil {u : URL} (h : ¬(u.username = [] ∧ u.password = [])) :
    1 ≤ (userinfoStr u).length := by
  simp only [userinfoStr, if_neg h, List.length_append, List.length_cons]
  omega

/-- C10: `parse` reads only hostname and pathname; a specifier carrying
userinfo, an explicit port, a query string or a fragment round-trips to
the specifier with those components removed, hence differs from the
original specifier. -/
theorem parse_discards_extras (u : URL) (hwf : u.wf)
    (hx : ¬(u.username = [] ∧ u.password = [] ∧ u.port = [] ∧
      u.search = [] ∧ u.hash = [])) :
    toUrl (parse u) =
        URL.specifier ⟨u.protocol, [], [], u.hostname, [], u.pathname, [], []⟩ ∧
      toUrl (parse u) ≠ u.specifier := by
  constructor
  · rw [toUrl_parse, addSeparator_eq]
    simp [URL.specifier, userinfoStr, portStr, List.append_assoc]
  · intro heq
    have hlen := congrArg List.length heq
    rw [toUrl_parse, addSeparator_eq] at hlen
    simp only [URL.specifier, List.length_append] at hlen
    have hui : (u.username = [] ∧ u.password = []) ∨ 1 ≤ (userinfoStr u).length := by
      by_cases h : u.username = [] ∧ u.password = []
      · exact Or.inl h
      · exact Or.inr (userinfoStr_ne_nil h)
    have hpt : u.port = [] ∨ 1 ≤ (portStr u).length := by
      by_cases h : u.port = []
      · exact Or.inl h
      · right; simp [portStr, if_neg h]
    have huiz : (u.username = [] ∧ u.password = []) → (userinfoStr u).length = 0 := by
      intro h; simp [userinfoStr, if_pos h]
    have hptz : u.port = [] → (portStr u).length = 0 := by
      intro h; simp [portStr, if_pos h]
    have hsz : u.search ≠ [] → 1 ≤ u.search.length := by
      intro h; cases hs : u.search with
      | nil => cases h hs
      | cons a as => simp
    have hhz : u.hash ≠ [] → 1 ≤ u.hash.length := by
      intro h; cases hs : u.hash with
      | nil => cases h hs
      | cons a as => simp
    push_neg at hx
    by_cases h1 : u.username = []
    · by_cases h2 : u.password = []
      · by_cases h3 : u.port = []
        · by_cases h4 : u.search = []
          · have h5 := hx h1 h2 h3 h4
            have := hhz h5
            have := huiz ⟨h1, h2⟩
            have := hptz h3
            omega
          · have := hsz h4
            have := huiz ⟨h1, h2⟩
            rcases hpt with h | h
            · have := hptz h; omega
            · omega
        · rcases hpt with h | h
          · exact absurd h h3
          · have := huiz ⟨h1, h2⟩; omega
      · have := userinfoStr_ne_nil (fun hc => h2 hc.2)
        omega
    · have := userinfoStr_ne_nil (fun hc => h1 hc.1)
      omega

/-- Example input for C10: a specifier carrying a query string. -/
def exC : URL :=
  ⟨str "https:", [], [], str "deno.land", [], str "/std@0.200.0/fs/mod.ts",
    str "?foo=1", []⟩

theorem parse_discards_extras_witness : toUrl (parse exC) ≠ exC.specifier :=
  (parse_discards_extras exC (by decide) (by decide)).2

/-- The version pair of a `DependencyUpdate` (`version: {from?, to}` in
the source).  `fromV` and `toV` stand for the source's `from` and `to`,
which are reserved words in Lean. -/
structure UpdateVersion where
  fromV : Option Str
  toV : Str
deriving DecidableEq, Repr

/-- The part of a `DependencyUpdate` record that `createVersionProp`
reads: the package name and the version pair. -/
structure DependencyUpdate where
  name : Str
  version : UpdateVersion
deriving DecidableEq, Repr

/-- `VersionProp` from the commit module: the reconciled version fact.
The source types `to` as a plain string, but on empty input the code
produces `undefined` there, so the faithful model is an option. -/
structure VersionProp where
  fromV : Option Str
  toV : Option Str
deriving DecidableEq, Repr

/-- `distinct` from `std/collections`: deduplication keeping the first
occurrence of each element, as the spread of a JavaScript `Set`.  The
accumulator holds the elements already emitted. -/
def distinctAux [DecidableEq α] : List α → List α → List α
  | _, [] => []
  | seen, a :: as =>
    if a ∈ seen then distinctAux seen as
    else a :: distinctAux (a :: seen) as

/-- Deduplication keeping first occurrences. -/
def distinct [DecidableEq α] (l : List α) : List α :=
  distinctAux [] l

/-- `createVersionProp` from the commit module, split case for case:
more than one distinct name yields no fact, more than one distinct
target throws, otherwise the fact pairs the single target with the
common prior version if all occurrences agree on one. -/
def createVersionProp (dependencies : List DependencyUpdate) :
    Except Str (Option VersionProp) :=
  if (distinct (dependencies.map (fun d => d.name))).length > 1 then
    .ok none
  else if (distinct (dependencies.map (fun d => d.version.toV))).length > 1 then
    .error (str "Multiple target versions are specified for a single module")
  else
    .ok (some
      ⟨match distinct (dependencies.map (fun d => d.version.fromV)) with
       | [x] => x
       | _ => none,
       (distinct (dependencies.map (fun d => d.version.toV))).head?⟩)

theorem mem_distinctAux [DecidableEq α] {a : α} (seen l : List α) :
    a ∈ distinctAux seen l ↔ a ∈ l ∧ a ∉ seen := by
  induction l generalizing seen with
  | nil => simp [distinctAux]
  | cons b bs ih =>
    by_cases hb : b ∈ seen
    · rw [distinctAux, if_pos hb, ih]
      constructor
      · rintro ⟨h1, h2⟩
        exact ⟨List.mem_cons_of_mem b h1, h2⟩
      · rintro ⟨h1, h2⟩
        rcases List.mem_cons.mp h1 with h1 | h1
        · subst h1; exact absurd hb h2
        · exact ⟨h1, h2⟩
    · rw [distinctAux, if_neg hb]
      constructor
      · intro h
        rcases List.mem_cons.mp h with h | h
        · subst h; exact ⟨List.mem_cons_self a bs, hb⟩
        · obtain ⟨h1, h2⟩ := (ih (b :: seen)).mp h
          refine ⟨List.mem_cons_of_mem b h1, fun hc => h2 (List.mem_cons_of_mem b hc)⟩
      · rintro ⟨h1, h2⟩
        rcases List.mem_cons.mp h1 with h1 | h1
        · subst h1; exact List.mem_cons_self a _
        · by_cases hab : a = b
          · subst hab; exact List.mem_cons_self a _
          · refine List.mem_cons_of_mem b ((ih (b :: seen)).mpr ⟨h1, ?_⟩)
            intro hc
            rcases List.mem_cons.mp hc with hc | hc
            · exact hab hc
            · exact h2 hc

theorem mem_distinct [DecidableEq α] {a : α} (l : List α) :
    a ∈ distinct l ↔ a ∈ l := by
  rw [distinct, mem_distinctAux]
  simp

theorem nodup_distinctAux [DecidableEq α] (seen l : List α) :
    (distinctAux seen l).Nodup := by
  induction l generalizing seen with
  | nil => simp [distinctAux]
  | cons b bs ih =>
    by_cases hb : b ∈ seen
    · rw [distinctAux, if_pos hb]; exact ih seen
    · rw [distinctAux, if_neg hb]
      refine List.Nodup.cons ?_ (ih (b :: seen))
      intro hc
      exact ((mem_distinctAux (b :: seen) bs).mp hc).2 (List.mem_cons_self b seen)

theorem distinct_length_le_one [DecidableEq α] (l : List α) :
    (distinct l).length ≤ 1 ↔ ∀ a ∈ l, ∀ b ∈ l, a = b := by
  constructor
  · intro h a ha b hb
    have ha' := (mem_distinct l).mpr ha
    have hb' := (mem_distinct l).mpr hb
    cases hd : distinct l with
    | nil => rw [hd] at ha'; cases ha'
    | cons x xs =>
      rw [hd] at ha' hb'
      cases xs with
      | nil =>
        simp at ha' hb'
        rw [ha', hb']
      | cons y ys => rw [hd] at h; simp at h
  · intro h
    cases hd : distinct l with
    | nil => simp
    | cons x xs =>
      cases xs with
      | nil => simp
      | cons y ys =>
        have hx : x ∈ distinct l := by rw [hd]; exact List.mem_cons_self x _
        have hy : y ∈ distinct l := by
          rw [hd]; exact List.mem_cons_of_mem x (List.mem_cons_self y _)
        have hxy : x = y := h x ((mem_distinct l).mp hx) y ((mem_distinct l).mp hy)
        have hnd := nodup_distinctAux ([] : List α) l
        rw [distinct] at hd
        rw [hd] at hnd
        rcases List.nodup_cons.mp hnd with ⟨hnx, _⟩
        exact absurd (hxy ▸ List.mem_cons_self y ys) hnx

theorem distinct_singleton [DecidableEq α] {l : List α} {x : α}
    (hne : l ≠ []) (hx : x ∈ l) (h : ∀ a ∈ l, ∀ b ∈ l, a = b) :
    distinct l = [x] := by
  have hle := (distinct_length_le_one l).mpr h
  have hxm : x ∈ distinct l := (mem_distinct l).mpr hx
  cases hd : distinct l with
  | nil => rw [hd] at hxm; cases hxm
  | cons a as =>
    cases as with
    | nil =>
      rw [hd] at hxm
      simp at hxm
      rw [hxm]
    | cons b bs => rw [hd] at hle; simp at hle

theorem allEq_map {l : List DependencyUpdate} {f : DependencyUpdate → α}
    (h : ∀ d1 ∈ l, ∀ d2 ∈ l, f d1 = f d2) :
    ∀ a ∈ l.map f, ∀ b ∈ l.map f, a = b := by
  intro a ha b hb
  obtain ⟨d1, hd1, ha⟩ := List.mem_map.mp ha
  obtain ⟨d2, hd2, hb⟩ := List.mem_map.mp hb
  rw [← ha, ← hb]
  exact h d1 hd1 d2 hd2

/-- C4: on a non-empty list of updates, `createVersionProp` applies the
rules in order: several distinct names give no fact, several distinct
targets throw a conflict, and otherwise the fact carries the single
agreed target together with the common prior version when all
occurrences agree on it and nothing otherwise. -/
theorem createVersionProp_spec (l : List DependencyUpdate) (hne : l ≠ []) :
    ((∃ d1 ∈ l, ∃ d2 ∈ l, d1.name ≠ d2.name) → createVersionProp l = .ok none) ∧
    ((∀ d1 ∈ l, ∀ d2 ∈ l, d1.name = d2.name) →
      (∃ d1 ∈ l, ∃ d2 ∈ l, d1.version.toV ≠ d2.version.toV) →
      createVersionProp l =
        .error (str "Multiple target versions are specified for a single module")) ∧
    ((∀ d1 ∈ l, ∀ d2 ∈ l, d1.name = d2.name) →
      (∀ d1 ∈ l, ∀ d2 ∈ l, d1.version.toV = d2.version.toV) →
      ∀ d ∈ l,
        ((∀ d1 ∈ l, ∀ d2 ∈ l, d1.version.fromV = d2.version.fromV) →
          createVersionProp l = .ok (some ⟨d.version.fromV, some d.version.toV⟩)) ∧
        ((∃ d1 ∈ l, ∃ d2 ∈ l, d1.version.fromV ≠ d2.version.fromV) →
          createVersionProp l = .ok (some ⟨none, some d.version.toV⟩))) := by
  refine ⟨?_, ?_, ?_⟩
  · rintro ⟨d1, hd1, d2, hd2, hne12⟩
    have hgt : (distinct (l.map (fun d => d.name))).length > 1 := by
      by_contra hle
      push_neg at hle
      have := (distinct_length_le_one (l.map (fun d => d.name))).mp hle
      exact hne12 (this d1.name (List.mem_map_of_mem _ hd1) d2.name (List.mem_map_of_mem _ hd2))
    rw [createVersionProp, if_pos hgt]
  · rintro hnames ⟨d1, hd1, d2, hd2, hne12⟩
    have hnle : ¬ (distinct (l.map (fun d => d.name))).length > 1 := by
      simp only [not_lt]
      exact (distinct_length_le_one _).mpr (allEq_map hnames)
    have hgt : (distinct (l.map (fun d => d.version.toV))).length > 1 := by
      by_contra hle
      push_neg at hle
      have := (distinct_length_le_one (l.map (fun d => d.version.toV))).mp hle
      exact hne12
        (this d1.version.toV (List.mem_map_of_mem _ hd1) d2.version.toV (List.mem_map_of_mem _ hd2))
    rw [createVersionProp, if_neg hnle, if_pos hgt]
  · intro hnames htos d hd
    have hnle : ¬ (distinct (l.map (fun d => d.name))).length > 1 := by
      simp only [not_lt]
      exact (distinct_length_le_one _).mpr (allEq_map hnames)
    have htos1 : distinct (l.map (fun d => d.version.toV)) = [d.version.toV] :=
      distinct_singleton (by simpa using hne) (List.mem_map_of_mem _ hd) (allEq_map htos)
    have htnle : ¬ (distinct (l.map (fun d => d.version.toV))).length > 1 := by
      rw [htos1]; simp
    constructor
    · intro hfroms
      have hfr1 : distinct (l.map (fun d => d.version.fromV)) = [d.version.fromV] :=
        distinct_singleton (by simpa using hne) (List.mem_map_of_mem _ hd) (allEq_map hfroms)
      rw [createVersionProp, if_neg hnle, if_neg htnle, hfr1, htos1]
      rfl
    · rintro ⟨d1, hd1, d2, hd2, hne12⟩
      have hgt : (distinct (l.map (fun d => d.version.fromV))).length > 1 := by
        by_contra hle
        push_neg at hle
        have := (distinct_length_le_one (l.map (fun d => d.version.fromV))).mp hle
        exact hne12 (this d1.version.fromV (List.mem_map_of_mem _ hd1)
          d2.version.fromV (List.mem_map_of_mem _ hd2))
      rw [createVersionProp, if_neg hnle, if_neg htnle, htos1]
      cases hfr : distinct (l.map (fun d => d.version.fromV)) with
      | nil => rw [hfr] at hgt; simp at hgt
      | cons x xs =>
        cases xs with
        | nil => rw [hfr] at hgt; simp at hgt
        | cons y ys => rfl

/-- Concrete reconciliation scenario: one name, one target, two prior
versions. -/
def exD : List DependencyUpdate :=
  [⟨str "deno.land/std", ⟨some (str "0.200.0"), str "0.202.0"⟩⟩,
   ⟨str "deno.land/std", ⟨some (str "0.201.0"), str "0.202.0"⟩⟩]

theorem createVersionProp_spec_witness :
    createVersionProp exD = .ok (some ⟨none, some (str "0.202.0")⟩) := by
  have h := ((createVersionProp_spec exD (by decide)).2.2 (by decide) (by decide)
    ⟨str "deno.land/std", ⟨some (str "0.200.0"), str "0.202.0"⟩⟩ (by decide)).2
  exact h (by decide)

/-- Split a string at the first occurrence of a separator, returning the
part before it and, when the separator occurs, the part after it. -/
def splitFirst (sep : Char) : Str → Str × Option Str
  | [] => ([], none)
  | c :: cs =>
    if c = sep then ([], some cs)
    else
      match splitFirst sep cs with
      | (l, r) => (c :: l, r)

/-- Sequence a list of options, failing when any entry is absent. -/
def seqOpt : List (Option α) → Option (List α)
  | [] => some []
  | none :: _ => none
  | some a :: rest =>
    match seqOpt rest with
    | none => none
    | some as => some (a :: as)

/-- The decimal digit characters. -/
def digitChar : Nat → Char
  | 0 => '0'
  | 1 => '1'
  | 2 => '2'
  | 3 => '3'
  | 4 => '4'
  | 5 => '5'
  | 6 => '6'
  | 7 => '7'
  | 8 => '8'
  | _ => '9'

/-- Render a natural number in decimal; the fuel argument bounds the
recursion depth and is always sufficient at `n + 1`. -/
def natToStrAux : Nat → Nat → Str
  | 0, _ => []
  | fuel + 1, n =>
    if n < 10 then [digitChar n]
    else natToStrAux fuel (n / 10) ++ [digitChar (n % 10)]

/-- Decimal rendering of a natural number. -/
def natToStr (n : Nat) : Str := natToStrAux (n + 1) n

/-- A prerelease identifier of a semantic version: numeric identifiers
are parsed as numbers, the rest kept as strings. -/
inductive Ident where
  | num (n : Nat)
  | alpha (s : Str)
deriving DecidableEq, Repr

/-- Modelled from the spec: the `SemVer` record of the vendored
`std/semver` module (`src/lib/std/semver.ts`, not present under `src/`):
a major-minor-patch triple with prerelease and build identifier lists,
both empty when absent. -/
structure SemVer where
  major : Nat
  minor : Nat
  patch : Nat
  prerelease : List Ident
  build : List Str
deriving DecidableEq, Repr

/-- Characters of prerelease and build identifiers: alphanumerics and
hyphens. -/
def identChar (c : Char) : Bool :=
  c.isAlphanum || c = '-'

/-- Numeric value of a digit string. -/
def digitsVal (s : Str) : Nat :=
  s.foldl (fun acc c => acc * 10 + (c.toNat - 48)) 0

/-- Parse a numeric identifier: nonempty, digits only, no leading zero. -/
def parseNumericIdent (s : Str) : Option Nat :=
  if s ≠ [] ∧ s.all Char.isDigit = true ∧ ¬(s.head? = some '0' ∧ s ≠ ['0']) then
    some (digitsVal s)
  else
    none

/-- Parse one prerelease identifier. -/
def parsePreIdent (s : Str) : Option Ident :=
  if s.all Char.isDigit = true ∧ s ≠ [] then
    match parseNumericIdent s with
    | some n => some (.num n)
    | none => none
  else if s ≠ [] ∧ s.all identChar = true then
    some (.alpha s)
  else
    none

/-- Parse one build identifier (leading zeros allowed). -/
def parseBuildIdent (s : Str) : Option Str :=
  if s ≠ [] ∧ s.all identChar = true then some s else none

/-- Parse the dotted major-minor-patch core. -/
def parseCore (s : Str) : Option (Nat × Nat × Nat) :=
  match splitOnChar '.' s with
  | [a, b, c] =>
    match parseNumericIdent a, parseNumericIdent b, parseNumericIdent c with
    | some x, some y, some z => some (x, y, z)
    | _, _, _ => none
  | _ => none

/-- Modelled from the spec: `SemVer.tryParse` of the vendored
`std/semver` module (not present under `src/`).  Strict semantic-version
syntax with the optional leading letter v accepted by the vendored
parser: core, then an optional prerelease after the first hyphen of the
part before the first plus sign, then an optional build after that plus
sign. -/
def tryParse (s : Str) : Option SemVer :=
  let t := if s.head? = some 'v' then s.tail else s
  match splitFirst '+' t with
  | (beforeBuild, buildPart) =>
    match splitFirst '-' beforeBuild with
    | (core, prePart) =>
      match parseCore core with
      | none => none
      | some (x, y, z) =>
        let pre : Option (List Ident) :=
          match prePart with
          | none => some []
          | some ps =>
            if ps = [] then none
            else seqOpt ((splitOnChar '.' ps).map parsePreIdent)
        let bld : Option (List Str) :=
          match buildPart with
          | none => some []
          | some bs =>
            if bs = [] then none
            else seqOpt ((splitOnChar '.' bs).map parseBuildIdent)
        match pre, bld with
        | some p, some b => some ⟨x, y, z, p, b⟩
        | _, _ => none

/-- Join strings with dots. -/
def joinDot : List Str → Str
  | [] => []
  | [s] => s
  | s :: rest => s ++ '.' :: joinDot rest

/-- Render one identifier. -/
def identStr : Ident → Str
  | .num n => natToStr n
  | .alpha s => s

/-- Modelled from the spec: `SemVer.format` of the vendored `std/semver`
module: dotted core, then the prerelease after a hyphen and the build
after a plus sign when present. -/
def format (v : SemVer) : Str :=
  natToStr v.major ++ '.' :: natToStr v.minor ++ '.' :: natToStr v.patch ++
    (if v.prerelease = [] then [] else '-' :: joinDot (v.prerelease.map identStr)) ++
    (if v.build = [] then [] else '+' :: joinDot v.build)

/-- `isPreRelease` from `src/lib/dependency.ts`: a version string is a
prerelease when it parses and its prerelease list is nonempty. -/
def isPreRelease (version : Str) : Bool :=
  match tryParse version with
  | some parsed => decide (parsed.prerelease ≠ [])
  | none => false

/-- Three-way comparison of naturals. -/
def cmpNat (a b : Nat) : Ordering :=
  if a < b then .lt else if a = b then .eq else .gt

/-- Three-way comparison of characters by code point. -/
def cmpChar (a b : Char) : Ordering :=
  cmpNat a.toNat b.toNat

/-- Lexicographic comparison of strings. -/
def cmpStr : Str → Str → Ordering
  | [], [] => .eq
  | [], _ :: _ => .lt
  | _ :: _, [] => .gt
  | a :: as, b :: bs =>
    match cmpChar a b with
    | .eq => cmpStr as bs
    | o => o

/-- Comparison of prerelease identifiers: numeric before alphanumeric. -/
def cmpIdent : Ident → Ident → Ordering
  | .num a, .num b => cmpNat a b
  | .num _, .alpha _ => .lt
  | .alpha _, .num _ => .gt
  | .alpha a, .alpha b => cmpStr a b

/-- Pairwise comparison of nonempty prerelease lists; a strict prefix
precedes its extension. -/
def cmpPreList : List Ident → List Ident → Ordering
  | [], [] => .eq
  | [], _ :: _ => .lt
  | _ :: _, [] => .gt
  | a :: as, b :: bs =>
    match cmpIdent a b with
    | .eq => cmpPreList as bs
    | o => o

/-- Prerelease comparison at the top level: a release (empty list)
outranks every prerelease. -/
def cmpPreTop (a b : List Ident) : Ordering :=
  match a, b with
  | [], [] => .eq
  | [], _ :: _ => .gt
  | _ :: _, [] => .lt
  | _, _ => cmpPreList a b

/-- Modelled from the spec: `SemVer.compare` of the vendored
`std/semver` module: major, minor, patch, then prerelease precedence;
build metadata is ignored. -/
def compareSemVer (a b : SemVer) : Ordering :=
  match cmpNat a.major b.major with
  | .eq =>
    match cmpNat a.minor b.minor with
    | .eq =>
      match cmpNat a.patch b.patch with
      | .eq => cmpPreTop a.prerelease b.prerelease
      | o => o
    | o => o
  | o => o

/-- The Boolean ordering used to model the ascending JavaScript
`Array.sort(SemVer.compare)`. -/
def semverLe (a b : SemVer) : Bool :=
  match compareSemVer a b with
  | .gt => false
  | _ => true

/-- Insert into a sorted list. -/
def insertSorted (le : α → α → Bool) (a : α) : List α → List α
  | [] => [a]
  | b :: bs => if le a b then a :: b :: bs else b :: insertSorted le a bs

/-- Insertion sort, modelling the comparator sort of JavaScript arrays
(which sort order is produced among elements the comparator ties is
irrelevant to every claim below). -/
def sortBy (le : α → α → Bool) : List α → List α
  | [] => []
  | a :: as => insertSorted le a (sortBy le as)

/-- Range comparison operators. -/
inductive CompOp where
  | eq
  | gt
  | gte
  | lt
  | lte
  | wild
deriving DecidableEq, Repr

/-- One comparator of a parsed range. -/
structure Comparator where
  op : CompOp
  ver : SemVer
deriving DecidableEq, Repr

def bumpMajor (v : SemVer) : SemVer := ⟨v.major + 1, 0, 0, [], []⟩

def bumpMinor (v : SemVer) : SemVer := ⟨v.major, v.minor + 1, 0, [], []⟩

/-- Modelled from the spec: `SemVer.tryParseRange` of the vendored
`std/semver` module (not present under `src/`).  The spec states that a
version token is either a single pinned version or a range/inequality
and that only pins are resolved further, so a pin parses to a single
comparator and every non-pin constraint to more than one, matching the
flat-length test the source applies to the result. -/
def tryParseRange (s : Str) : Option (List (List Comparator)) :=
  match tryParse s with
  | some v => some [[⟨.eq, v⟩]]
  | none =>
    match s with
    | '^' :: rest =>
      (tryParse rest).map (fun v => [[⟨.gte, v⟩, ⟨.lt, bumpMajor v⟩]])
    | '~' :: rest =>
      (tryParse rest).map (fun v => [[⟨.gte, v⟩, ⟨.lt, bumpMinor v⟩]])
    | '>' :: '=' :: rest =>
      (tryParse rest).map (fun v => [[⟨.gte, v⟩, ⟨.wild, v⟩]])
    | '<' :: '=' :: rest =>
      (tryParse rest).map (fun v => [[⟨.lte, v⟩, ⟨.wild, v⟩]])
    | '>' :: rest =>
      (tryParse rest).map (fun v => [[⟨.gt, v⟩, ⟨.wild, v⟩]])
    | '<' :: rest =>
      (tryParse rest).map (fun v => [[⟨.lt, v⟩, ⟨.wild, v⟩]])
    | _ => none

/-- The npm registry metadata shape the source validates:
`{"dist-tags": {"latest": string}}`. -/
structure NpmMeta where
  latest : Str
deriving DecidableEq, Repr

/-- One entry of the JSR version map: an optional `yanked` flag. -/
structure JsrEntry where
  yanked : Option Bool
deriving DecidableEq, Repr

/-- The JSR registry metadata shape the source validates:
`{"versions": {version: {"yanked"?: bool}}}`, as a list of pairs in
object insertion order. -/
structure JsrMeta where
  versions : List (Str × JsrEntry)
deriving DecidableEq, Repr

/-- Outcome of a metadata fetch: a response that is not ok, an ok
response whose body fails schema validation (`ensure` throws), or an ok
response with a valid body. -/
inductive Fetch (α : Type) where
  | notOk
  | malformed
  | ok (payload : α)
deriving DecidableEq, Repr

/-- The network as seen by one run: what each registry returns for each
package name, and for each probed URL whether the HEAD request was
redirected and, if so, the final response URL (as its parsed
components). -/
structure World where
  npm : Str → Fetch NpmMeta
  jsr : Str → Fetch JsrMeta
  probe : Str → Option URL

/-- The mutable process state of `LatestVersionCache` together with an
audit log: the name-keyed cache (later entries shadow earlier ones, as
`Map.set`), the set of currently held per-name locks, and the log of
names on whose behalf an outbound request was issued. -/
structure ResolverState where
  cache : List (Str × Option Dependency)
  locked : List Str
  requests : List Str

/-- The state at process start: empty cache, no locks, no requests. -/
def initState : ResolverState := ⟨[], [], []⟩

/-- `LatestVersionCache.get`. -/
def cacheGet (c : List (Str × Option Dependency)) (k : Str) : Option (Option Dependency) :=
  match c with
  | [] => none
  | (k', v) :: rest => if k = k' then some v else cacheGet rest k

/-- `LatestVersionCache.set`. -/
def cacheSet (s : ResolverState) (k : Str) (v : Option Dependency) : ResolverState :=
  ⟨(k, v) :: s.cache, s.locked, s.requests⟩

/-- Record one outbound request made on behalf of a package name. -/
def logRequest (s : ResolverState) (k : Str) : ResolverState :=
  ⟨s.cache, s.locked, k :: s.requests⟩

/-- The errors `_resolveLatestVersion` can raise: schema validation
failures of either registry body (`ensure` throws), an invalid version
key passed to `SemVer.parse`, and the type error of formatting the
missing maximum of an empty candidate list. -/
inductive ResolveError where
  | malformedNpm
  | malformedJsr
  | semverParse
  | emptyCandidates
deriving DecidableEq, Repr

/-- Result of one `resolveLatestVersion` call in the sequential
projection: a normal return, a raised error, or a call that suspends
forever on a lock that is never released. -/
inductive Outcome where
  | ok (r : Option Dependency)
  | error (e : ResolveError)
  | blocked
deriving DecidableEq, Repr

/-- `constraint && constraint.flat().length > 1` from
`_resolveLatestVersion`: the current version token parses as a
constraint with more than one comparator, so resolution is skipped. -/
def rangeSkip (d : Dependency) : Bool :=
  match d.version with
  | none => false
  | some v =>
    match tryParseRange v with
    | none => false
    | some c => decide (c.flatten.length > 1)

/-- The candidate version keys of a JSR metadata object: neither yanked
nor prereleases, in object order. -/
def jsrCandidates (meta : JsrMeta) : List Str :=
  (meta.versions.filter
    (fun e => !(e.2.yanked = some true : Bool) && !isPreRelease e.1)).map (fun e => e.1)

/-- `_resolveLatestVersion` from `src/lib/dependency.ts`, as a state
transformer: cache consultation (a resolved entry is returned with the
caller's path, a null entry means no update), the range guard, then the
per-scheme strategies; every switch exit that is not a thrown error
writes a terminal cache entry, thrown errors write nothing.  Unknown
schemes fall through the switch to the negative cache write. -/
def _resolveLatestVersion (w : World) (d : Dependency) (s : ResolverState) :
    Except ResolveError (Option Dependency) × ResolverState :=
  match cacheGet s.cache d.name with
  | some (some cached) => (.ok (some { cached with path := d.path }), s)
  | some none => (.ok none, s)
  | none =>
    if rangeSkip d then (.ok none, s)
    else if d.protocol = str "npm:" then
      match w.npm d.name with
      | .notOk => (.ok none, cacheSet (logRequest s d.name) d.name none)
      | .malformed => (.error .malformedNpm, logRequest s d.name)
      | .ok meta =>
        if d.version = some meta.latest ∨ isPreRelease meta.latest = true then
          (.ok none, cacheSet (logRequest s d.name) d.name none)
        else
          (.ok (some { d with version := some meta.latest }),
            cacheSet (logRequest s d.name) d.name
              (some { d with version := some meta.latest }))
    else if d.protocol = str "jsr:" then
      match w.jsr d.name with
      | .notOk => (.ok none, cacheSet (logRequest s d.name) d.name none)
      | .malformed => (.error .malformedJsr, logRequest s d.name)
      | .ok meta =>
        match seqOpt ((jsrCandidates meta).map tryParse) with
        | none => (.error .semverParse, logRequest s d.name)
        | some semvers =>
          match (sortBy semverLe semvers).reverse.head? with
          | none => (.error .emptyCandidates, logRequest s d.name)
          | some m =>
            if d.version = some (format m) ∨ isPreRelease (format m) = true then
              (.ok none, cacheSet (logRequest s d.name) d.name none)
            else
              (.ok (some { d with version := some (format m) }),
                cacheSet (logRequest s d.name) d.name
                  (some { d with version := some (format m) }))
    else if d.protocol = str "http:" ∨ d.protocol = str "https:" then
      match w.probe (addSeparator d.protocol ++ d.name ++ d.path) with
      | none => (.ok none, cacheSet (logRequest s d.name) d.name none)
      | some u =>
        match (parse u).version with
        | none => (.ok none, cacheSet (logRequest s d.name) d.name none)
        | some v =>
          if isPreRelease v = true then
            (.ok none, cacheSet (logRequest s d.name) d.name none)
          else
            (.ok (some (parse u)), cacheSet (logRequest s d.name) d.name (some (parse u)))
    else (.ok none, cacheSet s d.name none)

/-- `resolveLatestVersion` from `src/lib/dependency.ts` in the
sequential projection of the cooperative scheduler.  The per-name mutex
is modelled from the spec (the `x/async` module is not under `src/`):
acquiring a held lock suspends the caller, and since the holder never
releases in the cases below where it matters, such a call is `blocked`.
The source calls `unlock` only on a normal return of the inner function
(there is no try/finally), so a raised error leaves the lock held. -/
def resolveLatestVersion (w : World) (d : Dependency) (s : ResolverState) :
    Outcome × ResolverState :=
  if d.name ∈ s.locked then (.blocked, s)
  else
    match _resolveLatestVersion w d ⟨s.cache, d.name :: s.locked, s.requests⟩ with
    | (.ok r, s2) => (.ok r, ⟨s2.cache, s2.locked.erase d.name, s2.requests⟩)
    | (.error e, s2) => (.error e, s2)

/-- Run a sequence of resolutions, threading the process state. -/
def runResolves (w : World) (ds : List Dependency) (s : ResolverState) : ResolverState :=
  ds.foldl (fun s d => (resolveLatestVersion w d s).2) s

/-- A world where every metadata fetch yields a response that is not ok
and no probe is redirected. -/
def wNotFound : World := ⟨fun _ => .notOk, fun _ => .notOk, fun _ => none⟩

/-- A pinned npm dependency. -/
def dNpmPin : Dependency := ⟨str "npm:", str "nonexistent", some (str "1.0.0"), []⟩

/-- A pinned https dependency. -/
def dHttpsPin : Dependency :=
  ⟨str "https:", str "deno.land/std", some (str "0.200.0"), str "/version.ts"⟩

/-- C3: the code does not raise on a registry that lacks the package.
A not-ok npm metadata response makes `resolveLatestVersion` return
absent and write a negative cache entry — the same outcome as a
non-redirected probe — although the claim (and the source's own
`@throws` documentation) says a missing package raises a per-dependency
error for metadata-API strategies. -/
theorem notFound_no_error :
    (resolveLatestVersion wNotFound dNpmPin initState).1 = .ok none ∧
    cacheGet (resolveLatestVersion wNotFound dNpmPin initState).2.cache
      (str "nonexistent") = some none ∧
    (∀ e, (resolveLatestVersion wNotFound dNpmPin initState).1 ≠ .error e) ∧
    (resolveLatestVersion wNotFound dHttpsPin initState).1 = .ok none := by
  refine ⟨by decide, by decide, ?_, by decide⟩
  intro e
  cases e <;> decide

/-- A world whose npm registry answers ok with a body that fails schema
validation, so `ensure` throws. -/
def wMalformed : World := ⟨fun _ => .malformed, fun _ => .notOk, fun _ => none⟩

/-- C7: an error is not isolated: when the npm response body is
malformed the first call raises, the per-name lock stays held (there is
no try/finally around the inner call), no terminal cache entry is
written, and every later call for the same name suspends forever
instead of completing. -/
theorem error_leaves_lock_held :
    (resolveLatestVersion wMalformed dNpmPin initState).1 = .error .malformedNpm ∧
    dNpmPin.name ∈ (resolveLatestVersion wMalformed dNpmPin initState).2.locked ∧
    cacheGet (resolveLatestVersion wMalformed dNpmPin initState).2.cache
      dNpmPin.name = none ∧
    (resolveLatestVersion wMalformed dNpmPin
      (resolveLatestVersion wMalformed dNpmPin initState).2).1 = .blocked := by
  exact ⟨by decide, by decide, by decide, by decide⟩

/-- The parsed final URL of a redirect probe answering with the same
version the dependency already has. -/
def uRedirSame : URL :=
  ⟨str "https:", [], [], str "deno.land", [], str "/std@0.200.0/version.ts", [], []⟩

/-- A world redirecting the probe of `dHttpsPin` to `uRedirSame`. -/
def wRedirSame : World :=
  ⟨fun _ => .notOk, fun _ => .notOk,
    fun url => if url = str "https://deno.land/std/version.ts" then some uRedirSame else none⟩

/-- C2 fails for the redirect-probing strategy: the candidate version
equals the current one, yet the result is a (trivial) update and a
positive cache entry, not absence with a negative entry — the redirect
branch never compares the candidate against the current version. -/
theorem redirect_equal_version_counterexample :
    (parse uRedirSame).version = dHttpsPin.version ∧
    (resolveLatestVersion wRedirSame dHttpsPin initState).1 =
      .ok (some ⟨str "https:", str "deno.land/std", some (str "0.200.0"),
        str "/version.ts"⟩) ∧
    (resolveLatestVersion wRedirSame dHttpsPin initState).1 ≠ .ok none ∧
    cacheGet (resolveLatestVersion wRedirSame dHttpsPin initState).2.cache
      (str "deno.land/std") =
      some (some ⟨str "https:", str "deno.land/std", some (str "0.200.0"),
        str "/version.ts"⟩) := by
  exact ⟨by decide, by decide, by decide, by decide⟩

/-- A world whose npm registry reports latest version two for the
package `foo`. -/
def wNpmFoo : World :=
  ⟨fun n => if n = str "foo" then .ok ⟨str "2.0.0"⟩ else .notOk,
    fun _ => .notOk, fun _ => none⟩

/-- The package pinned, then the same package under a caret range. -/
def dFooPin : Dependency := ⟨str "npm:", str "foo", some (str "1.0.0"), []⟩

def dFooRange : Dependency := ⟨str "npm:", str "foo", some (str "^1.0.0"), []⟩

/-- C6 fails as stated: after a pinned occurrence of the same package
has populated the cache, resolving the range-versioned dependency
returns the cached update instead of absent — the cache consultation
precedes the range guard.  (No registry request is made for the ranged
call, so only the "returns absent" half of the claim fails.) -/
theorem range_returns_cached_counterexample :
    rangeSkip dFooRange = true ∧
    (resolveLatestVersion wNpmFoo dFooRange
      (resolveLatestVersion wNpmFoo dFooPin initState).2).1 =
      .ok (some ⟨str "npm:", str "foo", some (str "2.0.0"), []⟩) ∧
    (resolveLatestVersion wNpmFoo dFooRange
      (resolveLatestVersion wNpmFoo dFooPin initState).2).1 ≠ .ok none := by
  exact ⟨by decide, by decide, by decide⟩

/-- Exhaustive case analysis of the inner resolver: a cache hit returns
the entry and leaves the state alone; a fresh range token returns
without any effect; every fetched branch that returns normally writes
the returned value as the terminal cache entry after logging one
request; an unknown scheme writes a negative entry without a request;
and an error logs the one request and writes nothing. -/
theorem _resolve_cases (w : World) (d : Dependency) (s : ResolverState) :
    (∃ e, cacheGet s.cache d.name = some e ∧
      _resolveLatestVersion w d s = (.ok (e.map (fun c => { c with path := d.path })), s)) ∨
    (cacheGet s.cache d.name = none ∧
      _resolveLatestVersion w d s = (.ok none, s) ∧ rangeSkip d = true) ∨
    (cacheGet s.cache d.name = none ∧ ∃ v,
      _resolveLatestVersion w d s = (.ok v, cacheSet (logRequest s d.name) d.name v)) ∨
    (cacheGet s.cache d.name = none ∧ ∃ v,
      _resolveLatestVersion w d s = (.ok v, cacheSet s d.name v)) ∨
    (cacheGet s.cache d.name = none ∧ ∃ e,
      _resolveLatestVersion w d s = (.error e, logRequest s d.name)) := by
  cases hc : cacheGet s.cache d.name with
  | some e =>
    left
    refine ⟨e, rfl, ?_⟩
    cases e with
    | some c => simp [_resolveLatestVersion, hc]
    | none => simp [_resolveLatestVersion, hc]
  | none =>
    right
    by_cases hr : rangeSkip d = true
    · left
      exact ⟨rfl, by simp [_resolveLatestVersion, hc, hr], hr⟩
    · simp only [Bool.not_eq_true] at hr
      right
      by_cases hnpm : d.protocol = str "npm:"
      · cases hw : w.npm d.name with
        | notOk =>
          left
          exact ⟨rfl, none, by simp [_resolveLatestVersion, hc, hr, hnpm, hw]⟩
        | malformed =>
          right; right
          exact ⟨rfl, .malformedNpm, by simp [_resolveLatestVersion, hc, hr, hnpm, hw]⟩
        | ok meta =>
          by_cases heq : d.version = some meta.latest ∨ isPreRelease meta.latest = true
          · left
            exact ⟨rfl, none, by simp [_resolveLatestVersion, hc, hr, hnpm, hw, heq]⟩
          · left
            refine ⟨rfl, some { d with version := some meta.latest }, ?_⟩
            simp only [_resolveLatestVersion, hc, hr, hw]
            rw [if_neg (by simp), if_pos hnpm, if_neg heq]
      · by_cases hjsr : d.protocol = str "jsr:"
        · cases hw : w.jsr d.name with
          | notOk =>
            left
            refine ⟨rfl, none, ?_⟩
            simp only [_resolveLatestVersion, hc, hr, hw]
            rw [if_neg (by simp), if_neg hnpm, if_pos hjsr]
          | malformed =>
            right; right
            refine ⟨rfl, .malformedJsr, ?_⟩
            simp only [_resolveLatestVersion, hc, hr, hw]
            rw [if_neg (by simp), if_neg hnpm, if_pos hjsr]
          | ok meta =>
            cases hso : seqOpt ((jsrCandidates meta).map tryParse) with
            | none =>
              right; right
              refine ⟨rfl, .semverParse, ?_⟩
              simp only [_resolveLatestVersion, hc, hr, hw, hso]
              rw [if_neg (by simp), if_neg hnpm, if_pos hjsr]
            | some semvers =>
              cases hhd : (sortBy semverLe semvers).reverse.head? with
              | none =>
                right; right
                refine ⟨rfl, .emptyCandidates, ?_⟩
                simp only [_resolveLatestVersion, hc, hr, hw, hso, hhd]
                rw [if_neg (by simp), if_neg hnpm, if_pos hjsr]
              | some m =>
                by_cases heq : d.version = some (format m) ∨ isPreRelease (format m) = true
                · left
                  refine ⟨rfl, none, ?_⟩
                  simp only [_resolveLatestVersion, hc, hr, hw, hso, hhd]
                  rw [if_neg (by simp), if_neg hnpm, if_pos hjsr, if_pos heq]
                · left
                  refine ⟨rfl, some { d with version := some (format m) }, ?_⟩
                  simp only [_resolveLatestVersion, hc, hr, hw, hso, hhd]
                  rw [if_neg (by simp), if_neg hnpm, if_pos hjsr, if_neg heq]
        · by_cases hhttp : d.protocol = str "http:" ∨ d.protocol = str "https:"
          · cases hw : w.probe (addSeparator d.protocol ++ d.name ++ d.path) with
            | none =>
              left
              refine ⟨rfl, none, ?_⟩
              simp only [_resolveLatestVersion, hc, hr]
              rw [if_neg (by simp), if_neg hnpm, if_neg hjsr, if_pos hhttp]
              simp only [hw]
            | some u =>
              cases hv : (parse u).version with
              | none =>
                left
                refine ⟨rfl, none, ?_⟩
                simp only [_resolveLatestVersion, hc, hr]
                rw [if_neg (by simp), if_neg hnpm, if_neg hjsr, if_pos hhttp]
                simp only [hw, hv]
              | some v =>
                by_cases hpre : isPreRelease v = true
                · left
                  refine ⟨rfl, none, ?_⟩
                  simp only [_resolveLatestVersion, hc, hr]
                  rw [if_neg (by simp), if_neg hnpm, if_neg hjsr, if_pos hhttp]
                  simp only [hw, hv]
                  rw [if_pos hpre]
                · left
                  refine ⟨rfl, some (parse u), ?_⟩
                  simp only [_resolveLatestVersion, hc, hr]
                  rw [if_neg (by simp), if_neg hnpm, if_neg hjsr, if_pos hhttp]
                  simp only [hw, hv]
                  rw [if_neg hpre]
          · right; left
            refine ⟨rfl, none, ?_⟩
            simp only [_resolveLatestVersion, hc, hr]
            rw [if_neg (by simp), if_neg hnpm, if_neg hjsr, if_neg hhttp]

/-- Number of requests attributed to a package name in the log. -/
def countName (l : List Str) (n : Str) : Nat :=
  match l with
  | [] => 0
  | m :: rest => (if m = n then 1 else 0) + countName rest n

theorem countName_cons_self (l : List Str) (n : Str) :
    countName (n :: l) n = countName l n + 1 := by
  simp [countName]
  omega

theorem countName_cons_ne {m n : Str} (l : List Str) (h : m ≠ n) :
    countName (m :: l) n = countName l n := by
  simp [countName, h]

theorem cacheGet_cons_self (c : List (Str × Option Dependency)) (k : Str)
    (v : Option Dependency) : cacheGet ((k, v) :: c) k = some v := by
  simp [cacheGet]

theorem cacheGet_cons_ne {k k' : Str} (c : List (Str × Option Dependency))
    (v : Option Dependency) (h : k ≠ k') : cacheGet ((k', v) :: c) k = cacheGet c k := by
  simp [cacheGet, h]

theorem resolve_blocked {w : World} {d : Dependency} {s : ResolverState}
    (hl : d.name ∈ s.locked) : resolveLatestVersion w d s = (.blocked, s) := by
  rw [resolveLatestVersion, if_pos hl]

/-- A terminal cache entry exists for a name. -/
def terminalEntry (s : ResolverState) (n : Str) : Prop :=
  ∃ e, cacheGet s.cache n = some e

/-- The per-name invariant: at most one request was ever attributed to
the name, and if one was, either the terminal cache entry for the name
exists or its lock is (still) held. -/
def Inv (s : ResolverState) (n : Str) : Prop :=
  countName s.requests n ≤ 1 ∧
    (countName s.requests n = 1 → terminalEntry s n ∨ n ∈ s.locked)

theorem resolve_cachehit (w : World) (d : Dependency) (s : ResolverState)
    (e : Option Dependency) (hl : d.name ∉ s.locked)
    (hc : cacheGet s.cache d.name = some e) :
    (resolveLatestVersion w d s).1 =
        .ok (e.map (fun c => { c with path := d.path })) ∧
      (resolveLatestVersion w d s).2.cache = s.cache ∧
      (resolveLatestVersion w d s).2.locked = s.locked ∧
      (resolveLatestVersion w d s).2.requests = s.requests := by
  rcases _resolve_cases w d ⟨s.cache, d.name :: s.locked, s.requests⟩ with
    ⟨e', he', heq⟩ | ⟨hnone, _, _⟩ | ⟨hnone, _, _⟩ | ⟨hnone, _, _⟩ | ⟨hnone, _, _⟩
  · have hee : e' = e := by
      have : some e' = some e := he' ▸ hc
      exact Option.some.inj this
    subst hee
    rw [resolveLatestVersion, if_neg hl, heq]
    refine ⟨rfl, rfl, ?_, rfl⟩
    exact List.erase_cons_head d.name s.locked
  all_goals exact absurd (hnone ▸ hc) (by simp)

theorem step_inv (w : World) (d : Dependency) {s : ResolverState} {n : Str}
    (h : Inv s n) : Inv (resolveLatestVersion w d s).2 n := by
  by_cases hl : d.name ∈ s.locked
  · rw [resolve_blocked hl]
    exact h
  · rw [resolveLatestVersion, if_neg hl]
    rcases _resolve_cases w d ⟨s.cache, d.name :: s.locked, s.requests⟩ with
      ⟨e, he, heq⟩ | ⟨hnone, heq, _⟩ | ⟨hnone, v, heq⟩ | ⟨hnone, v, heq⟩ | ⟨hnone, e, heq⟩
    · rw [heq]
      simp only [List.erase_cons_head]
      exact h
    · rw [heq]
      simp only [List.erase_cons_head]
      exact h
    · rw [heq]
      simp only [cacheSet, logRequest, List.erase_cons_head]
      by_cases hn : n = d.name
      · subst hn
        have hcount : countName s.requests d.name = 0 := by
          rcases Nat.lt_or_ge (countName s.requests d.name) 1 with h1 | h1
          · omega
          · have hle := h.1
            have h2 : countName s.requests d.name = 1 := by omega
            rcases h.2 h2 with ⟨e0, he0⟩ | hmem
            · exact absurd (hnone ▸ he0) (by simp)
            · exact absurd hmem hl
        constructor
        · rw [countName_cons_self, hcount]
        · intro _
          exact Or.inl ⟨v, cacheGet_cons_self s.cache d.name v⟩
      · constructor
        · rw [countName_cons_ne s.requests (fun hx => hn hx.symm)]
          exact h.1
        · intro h1
          rw [countName_cons_ne s.requests (fun hx => hn hx.symm)] at h1
          rcases h.2 h1 with ⟨e0, he0⟩ | hmem
          · exact Or.inl ⟨e0, by rw [cacheGet_cons_ne s.cache v hn]; exact he0⟩
          · exact Or.inr hmem
    · rw [heq]
      simp only [cacheSet, List.erase_cons_head]
      constructor
      · exact h.1
      · intro h1
        by_cases hn : n = d.name
        · subst hn
          exact Or.inl ⟨v, cacheGet_cons_self s.cache d.name v⟩
        · rcases h.2 h1 with ⟨e0, he0⟩ | hmem
          · exact Or.inl ⟨e0, by rw [cacheGet_cons_ne s.cache v hn]; exact he0⟩
          · exact Or.inr hmem
    · rw [heq]
      simp only [logRequest]
      by_cases hn : n = d.name
      · subst hn
        have hcount : countName s.requests d.name = 0 := by
          rcases Nat.lt_or_ge (countName s.requests d.name) 1 with h1 | h1
          · omega
          · have hle := h.1
            have h2 : countName s.requests d.name = 1 := by omega
            rcases h.2 h2 with ⟨e0, he0⟩ | hmem
            · exact absurd (hnone ▸ he0) (by simp)
            · exact absurd hmem hl
        constructor
        · rw [countName_cons_self, hcount]
        · intro _
          exact Or.inr (List.mem_cons_self d.name s.locked)
      · constructor
        · rw [countName_cons_ne s.requests (fun hx => hn hx.symm)]
          exact h.1
        · intro h1
          rw [countName_cons_ne s.requests (fun hx => hn hx.symm)] at h1
          rcases h.2 h1 with ⟨e0, he0⟩ | hmem
          · exact Or.inl ⟨e0, he0⟩
          · exact Or.inr (List.mem_cons_of_mem d.name hmem)

theorem runResolves_inv (w : World) (ds : List Dependency) (n : Str) :
    ∀ s : ResolverState, Inv s n → Inv (runResolves w ds s) n := by
  induction ds with
  | nil => intro s h; exact h
  | cons d ds ih =>
    intro s h
    exact ih (resolveLatestVersion w d s).2 (step_inv w d h)

/-- C5: at most one outbound request per package name: over any call
sequence from process start the request log holds at most one entry per
name, and a call finding a terminal cache entry returns it (with the
caller's path) without touching the request log. -/
theorem resolve_at_most_one_request :
    (∀ (w : World) (ds : List Dependency) (n : Str),
      countName (runResolves w ds initState).requests n ≤ 1) ∧
    (∀ (w : World) (d : Dependency) (s : ResolverState) (e : Option Dependency),
      cacheGet s.cache d.name = some e → d.name ∉ s.locked →
      (resolveLatestVersion w d s).1 =
          .ok (e.map (fun c => { c with path := d.path })) ∧
        (resolveLatestVersion w d s).2.requests = s.requests) := by
  constructor
  · intro w ds n
    exact (runResolves_inv w ds n initState ⟨by simp [countName, initState], by
      simp [countName, initState]⟩).1
  · intro w d s e hc hl
    have h := resolve_cachehit w d s e hl hc
    exact ⟨h.1, h.2.2.2⟩

/-- A world where the registry already serves the dependency's pinned
version as latest. -/
def wUpToDate : World :=
  ⟨fun n => if n = str "foo" then .ok ⟨str "1.0.0"⟩ else .notOk,
    fun _ => .notOk, fun _ => none⟩

theorem resolve_at_most_one_request_witness :
    countName (runResolves wUpToDate [dFooPin, dFooPin] initState).requests
        (str "foo") ≤ 1 ∧
      countName (runResolves wUpToDate [dFooPin, dFooPin] initState).requests
        (str "foo") = 1 ∧
      (resolveLatestVersion wNpmFoo dFooRange
          (resolveLatestVersion wNpmFoo dFooPin initState).2).2.requests =
        (resolveLatestVersion wNpmFoo dFooPin initState).2.requests := by
  refine ⟨resolve_at_most_one_request.1 wUpToDate [dFooPin, dFooPin] (str "foo"),
    by decide, ?_⟩
  exact (resolve_at_most_one_request.2 wNpmFoo dFooRange
    (resolveLatestVersion wNpmFoo dFooPin initState).2
    (some ⟨str "npm:", str "foo", some (str "2.0.0"), []⟩)
    (by decide) (by decide)).2

theorem nonpin_two_comparators {v : Str} {c : List (List Comparator)}
    (hpin : tryParse v = none) (hr : tryParseRange v = some c) :
    c.flatten.length = 2 := by
  unfold tryParseRange at hr
  rw [hpin] at hr
  split at hr
  all_goals try split at hr
  all_goals
    first
    | (obtain ⟨v', hv', h⟩ := Option.map_eq_some'.mp hr
       rw [← h]
       rfl)
    | simp_all

theorem rangeSkip_of_nonpin {d : Dependency} {v : Str} {c : List (List Comparator)}
    (hv : d.version = some v) (hpin : tryParse v = none)
    (hr : tryParseRange v = some c) : rangeSkip d = true := by
  have h2 := nonpin_two_comparators hpin hr
  simp [rangeSkip, hv, hr, h2]

/-- C6 (amended): a dependency whose version token parses as a range or
inequality rather than a single pin never triggers a registry request;
its resolution returns absent unless a previously cached positive entry
for the same package name exists (the cache consultation precedes the
range guard). -/
theorem range_never_requests (w : World) (d : Dependency) (s : ResolverState)
    (v : Str) (c : List (List Comparator))
    (hl : d.name ∉ s.locked) (hv : d.version = some v)
    (hpin : tryParse v = none) (hr : tryParseRange v = some c) :
    (resolveLatestVersion w d s).2.requests = s.requests ∧
    ((cacheGet s.cache d.name = none ∨ cacheGet s.cache d.name = some none) →
      (resolveLatestVersion w d s).1 = .ok none) := by
  have hskip : rangeSkip d = true := rangeSkip_of_nonpin hv hpin hr
  cases hcase : cacheGet s.cache d.name with
  | some e =>
    have h := resolve_cachehit w d s e hl hcase
    refine ⟨h.2.2.2, ?_⟩
    rintro (h1 | h1)
    · cases h1
    · have : e = none := Option.some.inj h1
      subst this
      simpa using h.1
  | none =>
    have hres : _resolveLatestVersion w d ⟨s.cache, d.name :: s.locked, s.requests⟩ =
        (.ok none, ⟨s.cache, d.name :: s.locked, s.requests⟩) := by
      simp [_resolveLatestVersion, hcase, hskip]
    rw [resolveLatestVersion, if_neg hl, hres]
    exact ⟨rfl, fun _ => rfl⟩

theorem range_never_requests_witness :
    (resolveLatestVersion wNpmFoo dFooRange initState).2.requests =
        initState.requests ∧
      (resolveLatestVersion wNpmFoo dFooRange initState).1 = .ok none := by
  have h := range_never_requests wNpmFoo dFooRange initState (str "^1.0.0")
    [[⟨.gte, ⟨1, 0, 0, [], []⟩⟩, ⟨.lt, ⟨2, 0, 0, [], []⟩⟩]]
    (by decide) (by decide) (by decide) (by decide)
  exact ⟨h.1, h.2 (Or.inl (by decide))⟩

/-- C2 (amended): for the npm-style and JSR-style strategies a candidate
equal to the current version, or itself a prerelease, makes resolution
return absent and record a negative cache entry; for the
redirect-probing strategy the same holds for a missing or prerelease
candidate version, while a candidate equal to the current version is
not detected (no equality check exists in that branch). -/
theorem equal_or_prerelease_negative (w : World) (d : Dependency) (s : ResolverState)
    (hl : d.name ∉ s.locked)
    (hc : cacheGet s.cache d.name = none)
    (hrange : rangeSkip d = false) :
    (∀ meta : NpmMeta, d.protocol = str "npm:" → w.npm d.name = .ok meta →
      (d.version = some meta.latest ∨ isPreRelease meta.latest = true) →
      (resolveLatestVersion w d s).1 = .ok none ∧
        cacheGet (resolveLatestVersion w d s).2.cache d.name = some none) ∧
    (∀ (meta : JsrMeta) (semvers : List SemVer) (m : SemVer),
      d.protocol = str "jsr:" → w.jsr d.name = .ok meta →
      seqOpt ((jsrCandidates meta).map tryParse) = some semvers →
      (sortBy semverLe semvers).reverse.head? = some m →
      (d.version = some (format m) ∨ isPreRelease (format m) = true) →
      (resolveLatestVersion w d s).1 = .ok none ∧
        cacheGet (resolveLatestVersion w d s).2.cache d.name = some none) ∧
    (∀ u : URL, (d.protocol = str "http:" ∨ d.protocol = str "https:") →
      w.probe (addSeparator d.protocol ++ d.name ++ d.path) = some u →
      ((parse u).version = none ∨
        ∃ v, (parse u).version = some v ∧ isPreRelease v = true) →
      (resolveLatestVersion w d s).1 = .ok none ∧
        cacheGet (resolveLatestVersion w d s).2.cache d.name = some none) := by
  refine ⟨?_, ?_, ?_⟩
  · intro meta hp hw heq
    have hres : _resolveLatestVersion w d ⟨s.cache, d.name :: s.locked, s.requests⟩ =
        (.ok none, cacheSet (logRequest ⟨s.cache, d.name :: s.locked, s.requests⟩ d.name)
          d.name none) := by
      simp only [_resolveLatestVersion, hc, hrange, hw]
      rw [if_neg (by simp), if_pos hp, if_pos heq]
    rw [resolveLatestVersion, if_neg hl, hres]
    exact ⟨rfl, by simp [cacheSet, logRequest, cacheGet]⟩
  · intro meta semvers m hp hw hso hhd heq
    have hne : ¬ d.protocol = str "npm:" := by rw [hp]; decide
    have hres : _resolveLatestVersion w d ⟨s.cache, d.name :: s.locked, s.requests⟩ =
        (.ok none, cacheSet (logRequest ⟨s.cache, d.name :: s.locked, s.requests⟩ d.name)
          d.name none) := by
      simp only [_resolveLatestVersion, hc, hrange, hw, hso, hhd]
      rw [if_neg (by simp), if_neg hne, if_pos hp, if_pos heq]
    rw [resolveLatestVersion, if_neg hl, hres]
    exact ⟨rfl, by simp [cacheSet, logRequest, cacheGet]⟩
  · intro u hp hw hv
    have hne1 : ¬ d.protocol = str "npm:" := by
      rcases hp with hp | hp <;> rw [hp] <;> decide
    have hne2 : ¬ d.protocol = str "jsr:" := by
      rcases hp with hp | hp <;> rw [hp] <;> decide
    have hres : _resolveLatestVersion w d ⟨s.cache, d.name :: s.locked, s.requests⟩ =
        (.ok none, cacheSet (logRequest ⟨s.cache, d.name :: s.locked, s.requests⟩ d.name)
          d.name none) := by
      simp only [_resolveLatestVersion, hc, hrange]
      rw [if_neg (by simp), if_neg hne1, if_neg hne2, if_pos hp]
      simp only [hw]
      rcases hv with hv | ⟨v0, hv, hpre⟩
      · simp only [hv]
      · simp only [hv]
        rw [if_pos hpre]
    rw [resolveLatestVersion, if_neg hl, hres]
    exact ⟨rfl, by simp [cacheSet, logRequest, cacheGet]⟩

/-- A world whose npm registry serves a prerelease as latest. -/
def wNpmPre : World :=
  ⟨fun n => if n = str "foo" then .ok ⟨str "2.0.0-alpha.1"⟩ else .notOk,
    fun _ => .notOk, fun _ => none⟩

theorem equal_or_prerelease_negative_witness :
    (resolveLatestVersion wNpmPre dFooPin initState).1 = .ok none ∧
      cacheGet (resolveLatestVersion wNpmPre dFooPin initState).2.cache
        (str "foo") = some none := by
  exact (equal_or_prerelease_negative wNpmPre dFooPin initState
    (by decide) (by decide) (by decide)).1 ⟨str "2.0.0-alpha.1"⟩
    (by decide) (by decide) (Or.inr (by decide))

theorem insertSorted_perm (le : α → α → Bool) (a : α) (l : List α) :
    (insertSorted le a l).Perm (a :: l) := by
  induction l with
  | nil => simp [insertSorted]
  | cons b bs ih =>
    by_cases h : le a b = true
    · simp [insertSorted, h]
    · simp only [insertSorted, if_neg h]
      exact (ih.cons b).trans (List.Perm.swap a b bs)

theorem sortBy_perm (le : α → α → Bool) (l : List α) : (sortBy le l).Perm l := by
  induction l with
  | nil => simp [sortBy]
  | cons a as ih =>
    exact (insertSorted_perm le a (sortBy le as)).trans (ih.cons a)

theorem insertSorted_ne_nil (le : α → α → Bool) (a : α) (l : List α) :
    insertSorted le a l ≠ [] := by
  cases l with
  | nil => simp [insertSorted]
  | cons b bs =>
    simp only [insertSorted]
    split <;> simp

theorem insertSorted_max (le : α → α → Bool) (a : α) :
    ∀ (l : List α) (m : α),
      (∀ x ∈ a :: l, ∀ y ∈ a :: l, le x y = true ∨ le y x = true) →
      (∀ x ∈ a :: l, ∀ y ∈ a :: l, ∀ z ∈ a :: l,
        le x y = true → le y z = true → le x z = true) →
      l.getLast? = some m → (∀ c ∈ l, le c m = true) →
      ∃ n, (insertSorted le a l).getLast? = some n ∧ n ∈ a :: l ∧
        ∀ c ∈ a :: l, le c n = true := by
  intro l
  induction l with
  | nil => intro m _ _ hlast _; cases hlast
  | cons b bs ih =>
    intro m htot htrans hlast hub
    have hmem_m : m ∈ b :: bs := List.mem_of_mem_getLast? hlast
    by_cases hab : le a b = true
    · refine ⟨m, ?_, ?_, ?_⟩
      · simp only [insertSorted, if_pos hab]
        rw [List.getLast?_cons_cons]
        exact hlast
      · exact List.mem_cons_of_mem a hmem_m
      · intro c hc
        rcases List.mem_cons.mp hc with hc | hc
        · subst hc
          refine htrans c (List.mem_cons_self c _) b
            (List.mem_cons_of_mem c (List.mem_cons_self b bs))
            m (List.mem_cons_of_mem c hmem_m) hab ?_
          exact hub b (List.mem_cons_self b bs)
        · exact hub c hc
    · cases bs with
      | nil =>
        have hm : m = b := by
          simp at hlast
          exact hlast.symm
        subst hm
        refine ⟨a, ?_, List.mem_cons_self a _, ?_⟩
        · simp [insertSorted, hab]
        · intro c hc
          rcases List.mem_cons.mp hc with hc | hc
          · subst hc
            rcases htot c (List.mem_cons_self c _) c (List.mem_cons_self c _) with h | h
              <;> exact h
          · simp at hc
            subst hc
            rcases htot a (List.mem_cons_self a _) c
              (List.mem_cons_of_mem a (List.mem_cons_self c [])) with h | h
            · exact absurd h hab
            · exact h
      | cons b' bs' =>
        have hlast' : (b' :: bs').getLast? = some m := by
          rw [List.getLast?_cons_cons] at hlast
          exact hlast
        have hub' : ∀ c ∈ b' :: bs', le c m = true :=
          fun c hc => hub c (List.mem_cons_of_mem b hc)
        have hsub : ∀ x ∈ a :: b' :: bs', x ∈ a :: b :: b' :: bs' := by
          intro x hx
          rcases List.mem_cons.mp hx with hx | hx
          · subst hx; exact List.mem_cons_self x _
          · exact List.mem_cons_of_mem a (List.mem_cons_of_mem b hx)
        obtain ⟨n, hn_last, hn_mem, hn_ub⟩ := ih m
          (fun x hx y hy => htot x (hsub x hx) y (hsub y hy))
          (fun x hx y hy z hz => htrans x (hsub x hx) y (hsub y hy) z (hsub z hz))
          hlast' hub'
        refine ⟨n, ?_, ?_, ?_⟩
        · have hstep : insertSorted le a (b :: b' :: bs') =
              b :: insertSorted le a (b' :: bs') := by
            simp only [insertSorted, if_neg hab]
          obtain ⟨t, ts, ht⟩ : ∃ t ts, insertSorted le a (b' :: bs') = t :: ts := by
            cases his : insertSorted le a (b' :: bs') with
            | nil => exact absurd his (insertSorted_ne_nil le a _)
            | cons t ts => exact ⟨t, ts, rfl⟩
          rw [hstep, ht, List.getLast?_cons_cons, ← ht]
          exact hn_last
        · rcases List.mem_cons.mp hn_mem with hn | hn
          · subst hn; exact List.mem_cons_self n _
          · exact List.mem_cons_of_mem a (List.mem_cons_of_mem b hn)
        · intro c hc
          rcases List.mem_cons.mp hc with hc | hc
          · subst hc
            exact hn_ub c (List.mem_cons_self c _)
          · rcases List.mem_cons.mp hc with hc | hc
            · have hbm : le c m = true := by
                rw [hc]
                exact hub b (List.mem_cons_self b _)
              have hmn : le m n = true :=
                hn_ub m (List.mem_cons_of_mem a (List.mem_of_mem_getLast? hlast'))
              have hmem_c : c ∈ a :: b :: b' :: bs' := by
                rw [hc]
                exact List.mem_cons_of_mem a (List.mem_cons_self b _)
              refine htrans c hmem_c
                m (List.mem_cons_of_mem a (List.mem_cons_of_mem b
                  (List.mem_of_mem_getLast? hlast')))
                n ?_ hbm hmn
              rcases List.mem_cons.mp hn_mem with hn | hn
              · rw [hn]; exact List.mem_cons_self a _
              · exact List.mem_cons_of_mem a (List.mem_cons_of_mem b hn)
            · exact hn_ub c (List.mem_cons_of_mem a hc)

theorem sortBy_max (le : α → α → Bool) :
    ∀ l : List α,
      (∀ x ∈ l, ∀ y ∈ l, le x y = true ∨ le y x = true) →
      (∀ x ∈ l, ∀ y ∈ l, ∀ z ∈ l, le x y = true → le y z = true → le x z = true) →
      l ≠ [] →
      ∃ m, (sortBy le l).getLast? = some m ∧ m ∈ l ∧ ∀ c ∈ l, le c m = true := by
  intro l
  induction l with
  | nil => intro _ _ h; cases h rfl
  | cons a as ih =>
    intro htot htrans _
    cases has : as with
    | nil =>
      refine ⟨a, by simp [sortBy, insertSorted], List.mem_cons_self a _, ?_⟩
      intro c hc
      simp at hc
      subst hc
      rcases htot c (List.mem_cons_self c _) c (List.mem_cons_self c _) with h | h
        <;> exact h
    | cons a' as' =>
      subst has
      obtain ⟨m0, hm0_last, hm0_mem, hm0_ub⟩ := ih
        (fun x hx y hy =>
          htot x (List.mem_cons_of_mem a hx) y (List.mem_cons_of_mem a hy))
        (fun x hx y hy z hz =>
          htrans x (List.mem_cons_of_mem a hx) y (List.mem_cons_of_mem a hy)
            z (List.mem_cons_of_mem a hz))
        (by simp)
      have hperm := sortBy_perm le (a' :: as')
      have hmemiff : ∀ x, x ∈ sortBy le (a' :: as') ↔ x ∈ a' :: as' :=
        fun x => hperm.mem_iff
      have hlast' : (sortBy le (a' :: as')).getLast? = some m0 := hm0_last
      have hub' : ∀ c ∈ sortBy le (a' :: as'), le c m0 = true :=
        fun c hc => hm0_ub c ((hmemiff c).mp hc)
      have hsub : ∀ x ∈ a :: sortBy le (a' :: as'), x ∈ a :: a' :: as' := by
        intro x hx
        rcases List.mem_cons.mp hx with hx | hx
        · subst hx; exact List.mem_cons_self x _
        · exact List.mem_cons_of_mem a ((hmemiff x).mp hx)
      obtain ⟨n, hn_last, hn_mem, hn_ub⟩ := insertSorted_max le a
        (sortBy le (a' :: as')) m0
        (fun x hx y hy => htot x (hsub x hx) y (hsub y hy))
        (fun x hx y hy z hz => htrans x (hsub x hx) y (hsub y hy) z (hsub z hz))
        hlast' hub'
      refine ⟨n, hn_last, hsub n hn_mem, ?_⟩
      intro c hc
      rcases List.mem_cons.mp hc with hc | hc
      · subst hc
        exact hn_ub c (List.mem_cons_self c _)
      · exact hn_ub c (List.mem_cons_of_mem a ((hmemiff c).mpr hc))

theorem cmpNat_lt {a b : Nat} (h : a < b) : cmpNat a b = .lt := by
  simp [cmpNat, h]

theorem cmpNat_self (a : Nat) : cmpNat a a = .eq := by
  simp [cmpNat]

theorem cmpNat_gt {a b : Nat} (h : b < a) : cmpNat a b = .gt := by
  unfold cmpNat
  rw [if_neg (by omega), if_neg (by omega)]

theorem semverLe_iff {a b : SemVer} (ha : a.prerelease = []) (hb : b.prerelease = []) :
    semverLe a b = true ↔
      (a.major < b.major ∨ (a.major = b.major ∧ (a.minor < b.minor ∨
        (a.minor = b.minor ∧ a.patch ≤ b.patch)))) := by
  unfold semverLe compareSemVer
  rw [ha, hb]
  rcases Nat.lt_trichotomy a.major b.major with h | h | h
  · rw [cmpNat_lt h]
    simp
    omega
  · rw [h, cmpNat_self]
    rcases Nat.lt_trichotomy a.minor b.minor with h2 | h2 | h2
    · rw [cmpNat_lt h2]
      simp
      omega
    · rw [h2, cmpNat_self]
      rcases Nat.lt_trichotomy a.patch b.patch with h3 | h3 | h3
      · rw [cmpNat_lt h3]
        simp
        omega
      · rw [h3, cmpNat_self]
        simp [cmpPreTop]
        try omega
      · rw [cmpNat_gt h3]
        simp
        omega
    · rw [cmpNat_gt h2]
      simp
      omega
  · rw [cmpNat_gt h]
    simp
    omega

theorem digitChar_mem (k : Nat) : digitChar k ∈ str "0123456789" := by
  unfold digitChar
  split <;> decide

theorem natToStrAux_mem :
    ∀ (fuel n : Nat), ∀ c ∈ natToStrAux fuel n, c ∈ str "0123456789" := by
  intro fuel
  induction fuel with
  | zero => intro n c hc; simp [natToStrAux] at hc
  | succ f ih =>
    intro n c hc
    simp only [natToStrAux] at hc
    by_cases h : n < 10
    · rw [if_pos h] at hc
      simp at hc
      rw [hc]
      exact digitChar_mem n
    · rw [if_neg h] at hc
      rcases List.mem_append.mp hc with h1 | h1
      · exact ih _ c h1
      · simp at h1
        rw [h1]
        exact digitChar_mem _

theorem natToStr_mem {n : Nat} {c : Char} (hc : c ∈ natToStr n) :
    c ∈ str "0123456789" :=
  natToStrAux_mem (n + 1) n c hc

theorem natToStr_ne_nil (n : Nat) : natToStr n ≠ [] := by
  unfold natToStr natToStrAux
  by_cases h : n < 10
  · rw [if_pos h]; simp
  · rw [if_neg h]; simp

theorem splitFirst_of_not_mem {sep : Char} :
    ∀ {l : Str}, sep ∉ l → splitFirst sep l = (l, none) := by
  intro l
  induction l with
  | nil => intro _; rfl
  | cons c cs ih =>
    intro h
    have hc : ¬ c = sep := fun hx => h (hx ▸ List.mem_cons_self c cs)
    have hcs : sep ∉ cs := fun hx => h (List.mem_cons_of_mem c hx)
    simp only [splitFirst, if_neg hc, ih hcs]

theorem splitFirst_append {sep : Char} :
    ∀ {l : Str} (r : Str), sep ∉ l → splitFirst sep (l ++ sep :: r) = (l, some r) := by
  intro l
  induction l with
  | nil => intro r _; simp [splitFirst]
  | cons c cs ih =>
    intro r h
    have hc : ¬ c = sep := fun hx => h (hx ▸ List.mem_cons_self c cs)
    have hcs : sep ∉ cs := fun hx => h (List.mem_cons_of_mem c hx)
    simp only [List.cons_append, splitFirst, List.append_eq, if_neg hc, ih r hcs]

/-- The dotted version core rendered by `format`. -/
def coreStr (m : SemVer) : Str :=
  natToStr m.major ++ '.' :: natToStr m.minor ++ '.' :: natToStr m.patch

theorem coreStr_mem {m : SemVer} {c : Char} (hc : c ∈ coreStr m) :
    c = '.' ∨ c ∈ str "0123456789" := by
  unfold coreStr at hc
  rcases List.mem_append.mp hc with h | h
  · rcases List.mem_append.mp h with h | h
    · exact Or.inr (natToStr_mem h)
    · rcases List.mem_cons.mp h with h | h
      · exact Or.inl h
      · exact Or.inr (natToStr_mem h)
  · rcases List.mem_cons.mp h with h | h
    · exact Or.inl h
    · exact Or.inr (natToStr_mem h)

theorem coreStr_no_plus (m : SemVer) : '+' ∉ coreStr m := by
  intro hmem
  rcases coreStr_mem hmem with h | h
  · cases h
  · exact absurd h (by decide)

theorem coreStr_no_minus (m : SemVer) : '-' ∉ coreStr m := by
  intro hmem
  rcases coreStr_mem hmem with h | h
  · cases h
  · exact absurd h (by decide)

theorem format_eq_core (m : SemVer) (hpre : m.prerelease = []) :
    format m = coreStr m ++ (if m.build = [] then [] else '+' :: joinDot m.build) := by
  unfold format coreStr
  rw [hpre]
  simp

theorem format_head_not_v (m : SemVer) (hpre : m.prerelease = []) :
    ¬ (format m).head? = some 'v' := by
  rw [format_eq_core m hpre]
  obtain ⟨x, xs, hx⟩ : ∃ x xs, natToStr m.major = x :: xs := by
    cases h : natToStr m.major with
    | nil => exact absurd h (natToStr_ne_nil m.major)
    | cons x xs => exact ⟨x, xs, rfl⟩
  have hxd : x ∈ str "0123456789" := natToStr_mem (hx ▸ List.mem_cons_self x xs)
  have hcore : ∃ t, coreStr m = x :: t := by
    unfold coreStr
    rw [hx]
    exact ⟨_, rfl⟩
  obtain ⟨t, ht⟩ := hcore
  rw [ht]
  simp only [List.cons_append, List.head?_cons]
  intro hcon
  have : x = 'v' := by
    have := Option.some.inj hcon
    exact this
  rw [this] at hxd
  exact absurd hxd (by decide)

/-- A formatted release version never reads back as a prerelease: the
part before the first plus sign is the dotted core, which contains no
hyphen, so reparsing yields an empty prerelease list (or fails). -/
theorem isPreRelease_format (m : SemVer) (hpre : m.prerelease = []) :
    isPreRelease (format m) = false := by
  have hsplit : splitFirst '+' (format m) =
      (coreStr m, if m.build = [] then none else some (joinDot m.build)) := by
    rw [format_eq_core m hpre]
    by_cases hb : m.build = []
    · rw [if_pos hb, if_pos hb, List.append_nil]
      exact splitFirst_of_not_mem (coreStr_no_plus m)
    · rw [if_neg hb, if_neg hb]
      exact splitFirst_append (joinDot m.build) (coreStr_no_plus m)
  have hsplit2 : splitFirst '-' (coreStr m) = (coreStr m, none) :=
    splitFirst_of_not_mem (coreStr_no_minus m)
  simp only [isPreRelease, tryParse]
  rw [if_neg (format_head_not_v m hpre), hsplit]
  simp only [hsplit2]
  cases hp : parseCore (coreStr m) with
  | none => simp [hp]
  | some t =>
    obtain ⟨x, y, z⟩ := t
    by_cases hb : m.build = []
    · simp [hp, hb]
    · simp only [hp, if_neg hb]
      by_cases hjd : joinDot m.build = []
      · simp [hjd]
      · simp only [if_neg hjd]
        cases hj : seqOpt ((splitOnChar '.' (joinDot m.build)).map parseBuildIdent) with
        | none => simp [hj]
        | some b => simp [hj]

theorem seqOpt_map_mem {f : α → Option β} :
    ∀ {l : List α} {r : List β}, seqOpt (l.map f) = some r →
      ∀ x ∈ r, ∃ a ∈ l, f a = some x := by
  intro l
  induction l with
  | nil =>
    intro r h x hx
    simp only [List.map_nil, seqOpt] at h
    cases h
    simp at hx
  | cons a as ih =>
    intro r h x hx
    simp only [List.map_cons, seqOpt] at h
    cases hfa : f a with
    | none => rw [hfa] at h; cases h
    | some b =>
      rw [hfa] at h
      simp only [seqOpt] at h
      cases hs : seqOpt (as.map f) with
      | none => rw [hs] at h; cases h
      | some bs =>
        rw [hs] at h
        cases h
        rcases List.mem_cons.mp hx with hx | hx
        · exact ⟨a, List.mem_cons_self a as, hx ▸ hfa⟩
        · obtain ⟨a', ha', hfa'⟩ := ih hs x hx
          exact ⟨a', List.mem_cons_of_mem a ha', hfa'⟩

theorem jsrCandidates_not_pre {meta : JsrMeta} {c : Str}
    (hc : c ∈ jsrCandidates meta) : isPreRelease c = false := by
  unfold jsrCandidates at hc
  obtain ⟨e, he, heq⟩ := List.mem_map.mp hc
  have hcond := (List.mem_filter.mp he).2
  rw [Bool.and_eq_true] at hcond
  have := hcond.2
  rw [Bool.not_eq_true'] at this
  rw [← heq]
  exact this

theorem semvers_emptyPre {meta : JsrMeta} {semvers : List SemVer}
    (hparse : seqOpt ((jsrCandidates meta).map tryParse) = some semvers) :
    ∀ sv ∈ semvers, sv.prerelease = [] := by
  intro sv hsv
  obtain ⟨cand, hcand, hps⟩ := seqOpt_map_mem hparse sv hsv
  have hnp := jsrCandidates_not_pre hcand
  unfold isPreRelease at hnp
  rw [hps] at hnp
  simpa using hnp

/-- C8: for a JSR dependency whose metadata fetch succeeds and whose
candidate version keys all parse, the resolved latest version is the
maximum under semantic-version ordering of the non-yanked non-prerelease
versions: resolution returns an update carrying its formatting when it
differs from the current version, and absence with a negative cache
entry when it equals it. -/
theorem jsr_latest_is_max (w : World) (d : Dependency) (s : ResolverState)
    (meta : JsrMeta) (semvers : List SemVer)
    (hlock : d.name ∉ s.locked)
    (hcache : cacheGet s.cache d.name = none)
    (hrange : rangeSkip d = false)
    (hproto : d.protocol = str "jsr:")
    (hmeta : w.jsr d.name = .ok meta)
    (hparse : seqOpt ((jsrCandidates meta).map tryParse) = some semvers)
    (hne : semvers ≠ []) :
    ∃ m, m ∈ semvers ∧ (∀ c ∈ semvers, semverLe c m = true) ∧
      ((d.version = some (format m) →
        (resolveLatestVersion w d s).1 = .ok none ∧
          cacheGet (resolveLatestVersion w d s).2.cache d.name = some none) ∧
       (d.version ≠ some (format m) →
        (resolveLatestVersion w d s).1 =
            .ok (some { d with version := some (format m) }) ∧
          cacheGet (resolveLatestVersion w d s).2.cache d.name =
            some (some { d with version := some (format m) }))) := by
  have hemp := semvers_emptyPre hparse
  have htot : ∀ x ∈ semvers, ∀ y ∈ semvers,
      semverLe x y = true ∨ semverLe y x = true := by
    intro x hx y hy
    rw [semverLe_iff (hemp x hx) (hemp y hy), semverLe_iff (hemp y hy) (hemp x hx)]
    omega
  have htrans : ∀ x ∈ semvers, ∀ y ∈ semvers, ∀ z ∈ semvers,
      semverLe x y = true → semverLe y z = true → semverLe x z = true := by
    intro x hx y hy z hz
    rw [semverLe_iff (hemp x hx) (hemp y hy), semverLe_iff (hemp y hy) (hemp z hz),
      semverLe_iff (hemp x hx) (hemp z hz)]
    omega
  obtain ⟨m, hlast, hmem, hub⟩ := sortBy_max semverLe semvers htot htrans hne
  have hhd : (sortBy semverLe semvers).reverse.head? = some m := by
    rw [List.head?_reverse]
    exact hlast
  have hnenpm : ¬ d.protocol = str "npm:" := by rw [hproto]; decide
  refine ⟨m, hmem, hub, ?_, ?_⟩
  · intro heq
    have hres : _resolveLatestVersion w d ⟨s.cache, d.name :: s.locked, s.requests⟩ =
        (.ok none, cacheSet (logRequest ⟨s.cache, d.name :: s.locked, s.requests⟩ d.name)
          d.name none) := by
      simp only [_resolveLatestVersion, hcache, hrange, hmeta, hparse, hhd]
      rw [if_neg (by simp), if_neg hnenpm, if_pos hproto, if_pos (Or.inl heq)]
    rw [resolveLatestVersion, if_neg hlock, hres]
    exact ⟨rfl, by simp [cacheSet, logRequest, cacheGet]⟩
  · intro hne2
    have hnotor : ¬(d.version = some (format m) ∨ isPreRelease (format m) = true) := by
      rintro (h | h)
      · exact hne2 h
      · rw [isPreRelease_format m (hemp m hmem)] at h
        cases h
    have hres : _resolveLatestVersion w d ⟨s.cache, d.name :: s.locked, s.requests⟩ =
        (.ok (some { d with version := some (format m) }),
          cacheSet (logRequest ⟨s.cache, d.name :: s.locked, s.requests⟩ d.name) d.name
            (some { d with version := some (format m) })) := by
      simp only [_resolveLatestVersion, hcache, hrange, hmeta, hparse, hhd]
      rw [if_neg (by simp), if_neg hnenpm, if_pos hproto, if_neg hnotor]
    rw [resolveLatestVersion, if_neg hlock, hres]
    exact ⟨rfl, by simp [cacheSet, logRequest, cacheGet]⟩

/-- A JSR version map with one yanked version and one prerelease. -/
def metaJsr : JsrMeta :=
  ⟨[(str "1.0.0", ⟨none⟩), (str "1.2.0", ⟨none⟩),
    (str "2.0.0-rc.1", ⟨none⟩), (str "1.1.0", ⟨some true⟩)]⟩

def wJsr : World :=
  ⟨fun _ => .notOk, fun n => if n = str "@std/foo" then .ok metaJsr else .notOk,
    fun _ => none⟩

def dJsr : Dependency := ⟨str "jsr:", str "@std/foo", some (str "1.0.0"), []⟩

theorem jsr_latest_is_max_witness :
    (resolveLatestVersion wJsr dJsr initState).1 =
      .ok (some ⟨str "jsr:", str "@std/foo", some (str "1.2.0"), []⟩) := by
  obtain ⟨m, hmem, hub, hcases⟩ := jsr_latest_is_max wJsr dJsr initState metaJsr
    [⟨1, 0, 0, [], []⟩, ⟨1, 2, 0, [], []⟩] (by decide) (by decide) (by decide)
    (by decide) (by decide) (by decide) (by decide)
  have hm : m = ⟨1, 2, 0, [], []⟩ := by
    rcases List.mem_cons.mp hmem with h | h
    · exfalso
      have hle := hub ⟨1, 2, 0, [], []⟩ (by decide)
      rw [h] at hle
      exact absurd hle (by decide)
    · simpa using h
  have h2 := (hcases.2 (by rw [hm]; decide)).1
  rw [hm] at h2
  rw [h2]
  decide

end Molt
